import Mathlib

/-!
Verification of the shogun argument-parsing core (type-driven dispatch,
recursive flag-name prefixing, and namespace unflattening), as implemented in
`shogun/argparse_/parse.py`, `shogun/argparse_/action.py`,
`shogun/dispatch/registry.py`, `shogun/dispatch/record_class.py` and the
concrete dispatchers under `shogun/dispatch/concrete/`.

Strings are compared the way Python compares `str` values: lexicographically
by code point.  All string operations used by the code under scrutiny
(`sorted`, `startswith`, slicing, `str.replace`) are modelled on the
character lists underlying Lean strings so that everything evaluates.
-/

namespace Shogun

/-- Python code-point lexicographic strict comparison on character lists
(the order used by `sorted()` on `str`). -/
def lexLt : List Char → List Char → Bool
  | [], [] => false
  | [], _ :: _ => true
  | _ :: _, [] => false
  | a :: as, b :: bs => if a < b then true else if b < a then false else lexLt as bs

/-- Python `s < t` on strings. -/
def strLt (s t : String) : Bool := lexLt s.data t.data

/-- Python `s.startswith(p)`. -/
def startswith (p s : String) : Bool := p.data.isPrefixOf s.data

/-- Python `s[n:]` (slicing drops code points). -/
def strDropn (s : String) (n : Nat) : String := String.mk (s.data.drop n)

/-- Python `s.replace("_", "-")`. -/
def hyph (s : String) : String := String.mk (s.data.map (fun c => if c = '_' then '-' else c))

/-- Python `s.replace("-", "_")` (the conversion argparse applies to produce
the destination name of a flag). -/
def underscore (s : String) : String :=
  String.mk (s.data.map (fun c => if c = '-' then '_' else c))

theorem lexLt_irrefl (a : List Char) : lexLt a a = false := by
  induction a with
  | nil => rfl
  | cons x xs ih => simp [lexLt, ih]

theorem lexLt_asymm : ∀ a b : List Char, lexLt a b = true → lexLt b a = false
  | [], [], h => by simp [lexLt] at h
  | [], _ :: _, _ => rfl
  | _ :: _, [], h => by simp [lexLt] at h
  | x :: xs, y :: ys, h => by
    simp only [lexLt] at h ⊢
    rcases lt_trichotomy x y with hxy | hxy | hxy
    · simp [hxy, not_lt_of_lt hxy]
    · subst hxy
      simp only [lt_irrefl, if_false] at h ⊢
      exact lexLt_asymm xs ys h
    · simp [hxy, not_lt_of_lt hxy] at h

theorem lexLt_not_trans : ∀ a b c : List Char,
    lexLt b a = false → lexLt c b = false → lexLt c a = false
  | [], _, [], _, _ => rfl
  | _ :: _, [], [], hba, _ => by simp [lexLt] at hba
  | _ :: _, _ :: _, [], _, hcb => by simp [lexLt] at hcb
  | [], _, _ :: _, _, _ => rfl
  | _ :: _, [], _ :: _, hba, _ => by simp [lexLt] at hba
  | x :: xs, y :: ys, z :: zs, hba, hcb => by
    simp only [lexLt] at hba hcb ⊢
    rcases lt_trichotomy y x with hyx | hyx | hyx
    · simp [hyx] at hba
    · subst hyx
      simp only [lt_irrefl, if_false] at hba
      rcases lt_trichotomy z y with hzy | hzy | hzy
      · simp [hzy] at hcb
      · subst hzy
        simp only [lt_irrefl, if_false] at hcb ⊢
        exact lexLt_not_trans xs ys zs hba hcb
      · simp [hzy, not_lt_of_lt hzy]
    · rcases lt_trichotomy z y with hzy | hzy | hzy
      · simp [hzy] at hcb
      · subst hzy
        simp [hyx, not_lt_of_lt hyx]
      · have hzx : z > x := lt_trans hyx hzy
        simp [hzx, not_lt_of_lt hzx]

/-- A proper prefix is lexicographically smaller. -/
theorem lexLt_of_prefixOf : ∀ a b : List Char, a.isPrefixOf b → a ≠ b → lexLt a b = true
  | [], [], _, hne => absurd rfl hne
  | [], _ :: _, _, _ => rfl
  | _ :: _, [], h, _ => by simp [List.isPrefixOf] at h
  | x :: xs, y :: ys, h, hne => by
    simp only [List.isPrefixOf, Bool.and_eq_true, beq_iff_eq] at h
    obtain ⟨rfl, hp⟩ := h
    simp only [lexLt, lt_irrefl, if_false]
    exact lexLt_of_prefixOf xs ys hp (by intro he; exact hne (by rw [he]))

/-! Parsed values and record instances.

A parsed command-line value (the entries of the flat name-to-value mapping
produced by the parsing primitive).  `vnone` models Python `None` (the
argparse default when a field declares none). -/

inductive PVal : Type where
  | vnone
  | vstr (s : String)
  | vint (n : Int)
  | vbool (b : Bool)
  | vfloat (lit : String)
  | venum (member : String)
  deriving DecidableEq, Repr

/-- A value held by a field of a constructed record instance: either a parsed
primitive or a nested record instance (an attribute map). -/
inductive InstVal : Type where
  | prim (v : PVal)
  | inst (fields : List (String × InstVal))
  deriving Repr

mutual

/-- Boolean equality on instance values. -/
def InstVal.beq : InstVal → InstVal → Bool
  | .prim v, .prim w => v == w
  | .inst xs, .inst ys => InstVal.beqFields xs ys
  | _, _ => false

/-- Boolean equality on attribute maps. -/
def InstVal.beqFields : List (String × InstVal) → List (String × InstVal) → Bool
  | [], [] => true
  | (k, v) :: xs, (k', v') :: ys => k == k' && InstVal.beq v v' && InstVal.beqFields xs ys
  | _, _ => false

end

mutual

theorem InstVal.beq_iff : ∀ a b : InstVal, InstVal.beq a b = true ↔ a = b
  | .prim v, .prim w => by simp [InstVal.beq]
  | .prim _, .inst _ => by simp [InstVal.beq]
  | .inst _, .prim _ => by simp [InstVal.beq]
  | .inst xs, .inst ys => by
    simp only [InstVal.beq, InstVal.inst.injEq]
    exact InstVal.beqFields_iff xs ys

theorem InstVal.beqFields_iff :
    ∀ xs ys : List (String × InstVal), InstVal.beqFields xs ys = true ↔ xs = ys
  | [], [] => by simp [InstVal.beqFields]
  | [], _ :: _ => by simp [InstVal.beqFields]
  | _ :: _, [] => by simp [InstVal.beqFields]
  | (k, v) :: xs, (k', v') :: ys => by
    simp only [InstVal.beqFields, Bool.and_eq_true, beq_iff_eq, List.cons.injEq,
      Prod.mk.injEq]
    rw [and_assoc, InstVal.beq_iff v v', InstVal.beqFields_iff xs ys]
    exact and_assoc.symm

end

instance : DecidableEq InstVal := fun a b =>
  decidable_of_iff (InstVal.beq a b = true) (InstVal.beq_iff a b)

instance {ε α : Type} [DecidableEq ε] [DecidableEq α] : DecidableEq (Except ε α)
  | .error e, .error e' =>
    if h : e = e' then isTrue (by rw [h]) else isFalse (fun hc => by cases hc; exact h rfl)
  | .error _, .ok _ => isFalse (fun h => by cases h)
  | .ok _, .error _ => isFalse (fun h => by cases h)
  | .ok v, .ok v' =>
    if h : v = v' then isTrue (by rw [h]) else isFalse (fun hc => by cases hc; exact h rfl)

/-! The record schema, as the core consumes it: an ordered field list, each
field carrying a name, a static type, extra metadata aliases and an optional
default (`none` models `dataclasses.MISSING`, i.e. a required field). -/

mutual

/-- A field's static type.  Converters (`String → Option PVal`, `none`
modelling a raised conversion exception) stand for the Python callables the
dispatchers attach as argparse `type` functions.  `fenum` carries the member
name table together with each member's Python truthiness; `fcontainer`
carries the optional `argparse_parse` metadata converter, the
`has_shogun_argparse_parse` probe and the fallback converter (the type
itself, per `RecordField.type_converter`). -/
inductive FTy : Type where
  | fbool
  | fenum (members : List (String × Bool))
  | fbase (conv : String → Option PVal)
  | fcontainer (aparse : Option (String → Option PVal)) (hasShogun : Bool)
      (tyconv : String → Option PVal)
  | frecord (fields : List SField)

/-- One declared field: name, type, metadata aliases, default
(`none` = required). -/
inductive SField : Type where
  | mk (name : String) (ty : FTy) (aliases : List String) (fdefault : Option InstVal)

end

def SField.name : SField → String
  | .mk n _ _ _ => n

def SField.ty : SField → FTy
  | .mk _ t _ _ => t

def SField.aliases : SField → List String
  | .mk _ _ a _ => a

def SField.fdefault : SField → Option InstVal
  | .mk _ _ _ d => d

/-- The flat name-to-value mapping fed to the unflattener (the
`Dict[str, Any]` of parsed args). -/
abbrev Args := List (String × PVal)

/-- Errors the reconstruction can surface: `notARecordClass` models the
`NotARecordClass` raise in `RecordClass.wrap_class`, the other two model the
`TypeError`s Python raises when keyword arguments do not fit the
constructor. -/
inductive RErr : Type where
  | notARecordClass
  | missingArg
  | unexpectedKeyword
  deriving DecidableEq, Repr

/-- First-match association lookup (Python `dict[k]`). -/
def lookupKey {β : Type} (k : String) : List (String × β) → Option β
  | [] => none
  | (k', v) :: rest => if k' == k then some v else lookupKey k rest

/-- Remove the first binding of `k` (Python `dict.pop(k)` on insertion-ordered
dicts keeps the order of the remaining entries). -/
def eraseKey {β : Type} (k : String) : List (String × β) → List (String × β)
  | [] => []
  | (k', v) :: rest => if k' == k then rest else (k', v) :: eraseKey k rest

/-- Non-strict key comparison used to sort the flat mapping
(`sorted(args.items())`; keys are unique so the tuple comparison never
reaches the values). -/
def keyLe {β : Type} (a b : String × β) : Bool := !(lexLt b.1.data a.1.data)

/-- Non-strict field comparison used to sort the schema fields
(`sorted(record_class.fields_dict().items())`; names are unique). -/
def fieldLe (a b : SField) : Bool := !(lexLt b.name.data a.name.data)

instance {β : Type} : DecidableRel (fun (a b : String × β) => keyLe a b = true) :=
  fun _ _ => inferInstanceAs (Decidable _)

instance : DecidableRel (fun (a b : SField) => fieldLe a b = true) :=
  fun _ _ => inferInstanceAs (Decidable _)

/-- Python `sorted` on the flat mapping's items (stable, by key). -/
def sortArgs {β : Type} (args : List (String × β)) : List (String × β) :=
  List.insertionSort (fun a b => keyLe a b = true) args

/-- Python `sorted` on the schema's field items (stable, by name). -/
def sortFields (fields : List SField) : List SField :=
  List.insertionSort (fun a b => fieldLe a b = true) fields

/-- The keyword construction of the host type, `record_class.cls(**unpacked)`:
every keyword must name a declared field, and every field must be resolved
by a keyword or fall back to its declared default. -/
def mkCls (fields : List SField) (unpacked : List (String × InstVal)) :
    Except RErr (List (String × InstVal)) :=
  if unpacked.all (fun kv => fields.any (fun f => f.name == kv.1)) then
    go fields
  else
    .error .unexpectedKeyword
where
  go : List SField → Except RErr (List (String × InstVal))
    | [] => .ok []
    | f :: rest =>
      match lookupKey f.name unpacked, f.fdefault with
      | some v, _ =>
        match go rest with
        | .error e => .error e
        | .ok u => .ok ((f.name, v) :: u)
      | none, some d =>
        match go rest with
        | .error e => .error e
        | .ok u => .ok ((f.name, d) :: u)
      | none, none => .error .missingArg

mutual

/-- Shallow embedding of `build_record_instance_from_parsed_args`
(`shogun/argparse_/parse.py`): sort the flat mapping by key, walk the schema
fields sorted by name, consume an exactly-equal key as the direct value,
otherwise treat the first key extending the field name as the start of a
nested record (collecting the front run of the remaining sorted keys that
extend the field name, stripping `len(name) + 1` code points, recursing),
then keyword-construct the host type. -/
def buildRecordInstance (fields : List SField) (args : Args) :
    Except RErr (List (String × InstVal)) :=
  match goFields (sortFields fields) (sortArgs args) with
  | .error e => .error e
  | .ok unpacked => mkCls fields unpacked
termination_by (sizeOf fields, 1)
decreasing_by
  have h : sizeOf (sortFields fields) = sizeOf fields :=
    (List.perm_insertionSort _ fields).sizeOf_eq_sizeOf
  simp only [h]
  exact Prod.Lex.right _ (by omega)

/-- The field loop of `build_record_instance_from_parsed_args`, operating on
the name-sorted field list and the key-sorted remaining mapping. -/
def goFields : List SField → Args → Except RErr (List (String × InstVal))
  | [], _ => .ok []
  | .mk fname fty _fal _fdf :: rest, args =>
    match args.find? (fun kv => kv.1 == fname || startswith fname kv.1) with
    | none => goFields rest args
    | some kv =>
      if kv.1 == fname then
        match goFields rest (eraseKey kv.1 args) with
        | .error e => .error e
        | .ok u => .ok ((fname, .prim kv.2) :: u)
      else
        let run := args.takeWhile (fun kv => startswith fname kv.1)
        let rem := args.dropWhile (fun kv => startswith fname kv.1)
        let subArgs := run.map (fun kv => (strDropn kv.1 (fname.length + 1), kv.2))
        match fty with
        | .frecord sub =>
          match buildRecordInstance sub subArgs with
          | .error e => .error e
          | .ok v =>
            match goFields rest rem with
            | .error e => .error e
            | .ok u => .ok ((fname, .inst v) :: u)
        | _ => .error .notARecordClass
termination_by fields _ => (sizeOf fields, 0)
decreasing_by
  all_goals simp_arith [Prod.lex_iff]

end

instance {β : Type} : IsTotal (String × β) (fun a b => keyLe a b = true) := by
  constructor
  intro a b
  simp only [keyLe, Bool.not_eq_true']
  rcases h : lexLt b.1.data a.1.data with _ | _
  · exact Or.inl rfl
  · exact Or.inr (lexLt_asymm _ _ h)

instance {β : Type} : IsTrans (String × β) (fun a b => keyLe a b = true) := by
  constructor
  intro a b c hab hbc
  simp only [keyLe, Bool.not_eq_true'] at hab hbc ⊢
  exact lexLt_not_trans _ _ _ hab hbc

instance : IsTotal SField (fun a b => fieldLe a b = true) := by
  constructor
  intro a b
  simp only [fieldLe, Bool.not_eq_true']
  rcases h : lexLt b.name.data a.name.data with _ | _
  · exact Or.inl rfl
  · exact Or.inr (lexLt_asymm _ _ h)

instance : IsTrans SField (fun a b => fieldLe a b = true) := by
  constructor
  intro a b c hab hbc
  simp only [fieldLe, Bool.not_eq_true'] at hab hbc ⊢
  exact lexLt_not_trans _ _ _ hab hbc

theorem sortArgs_sorted {β : Type} (args : List (String × β)) :
    List.Sorted (fun a b => keyLe a b = true) (sortArgs args) :=
  List.sorted_insertionSort _ args

theorem sortArgs_perm {β : Type} (args : List (String × β)) : (sortArgs args).Perm args :=
  List.perm_insertionSort _ args

theorem sortFields_perm (fields : List SField) : (sortFields fields).Perm fields :=
  List.perm_insertionSort _ fields

/-! Claim C10: which keys reach the host constructor. -/

/-- Every binding produced by the field loop is named after a processed
schema field: stray flat keys are never passed to the constructor. -/
theorem goFields_names : ∀ (flds : List SField) (args : Args) (unpacked : List (String × InstVal)),
    goFields flds args = .ok unpacked →
    ∀ kv ∈ unpacked, ∃ f ∈ flds, f.name = kv.1
  | [], _, unpacked, h, kv, hkv => by
    simp only [goFields] at h
    cases h
    simp at hkv
  | .mk fname fty fal fdf :: rest, args, unpacked, h, kv, hkv => by
    simp only [goFields] at h
    split at h
    · obtain ⟨f, hf, hname⟩ := goFields_names rest args unpacked h kv hkv
      exact ⟨f, List.mem_cons_of_mem _ hf, hname⟩
    · split at h
      · split at h
        · exact absurd h (by simp)
        · rename_i u hrec
          injection h with h'
          subst h'
          rcases List.mem_cons.mp hkv with rfl | hmem
          · exact ⟨_, List.mem_cons_self _ _, rfl⟩
          · obtain ⟨f, hf, hname⟩ := goFields_names rest _ u hrec kv hmem
            exact ⟨f, List.mem_cons_of_mem _ hf, hname⟩
      · split at h
        · rename_i sub
          split at h
          · exact absurd h (by simp)
          · split at h
            · exact absurd h (by simp)
            · rename_i u hrec
              injection h with h'
              subst h'
              rcases List.mem_cons.mp hkv with rfl | hmem
              · exact ⟨_, List.mem_cons_self _ _, rfl⟩
              · obtain ⟨f, hf, hname⟩ := goFields_names rest _ u hrec kv hmem
                exact ⟨f, List.mem_cons_of_mem _ hf, hname⟩
        · exact absurd h (by simp)

/-- The keyword-construction loop itself can only fail with `missingArg`. -/
theorem mkCls_go_ne_unexpected (unpacked : List (String × InstVal)) :
    ∀ fields : List SField, mkCls.go unpacked fields ≠ .error .unexpectedKeyword
  | [] => by simp [mkCls.go]
  | f :: rest => by
    simp only [mkCls.go]
    split
    · split
      · rename_i e herr
        intro hcontra
        injection hcontra with h'
        subst h'
        exact mkCls_go_ne_unexpected unpacked rest herr
      · simp
    · split
      · rename_i e herr
        intro hcontra
        injection hcontra with h'
        subst h'
        exact mkCls_go_ne_unexpected unpacked rest herr
      · simp
    · simp

/-- When every keyword names a schema field, `mkCls` never rejects a
keyword. -/
theorem mkCls_ne_unexpected (fields : List SField) (unpacked : List (String × InstVal))
    (hmem : ∀ kv ∈ unpacked, ∃ f ∈ fields, f.name = kv.1) :
    mkCls fields unpacked ≠ .error .unexpectedKeyword := by
  unfold mkCls
  rw [if_pos]
  · exact mkCls_go_ne_unexpected unpacked fields
  · rw [List.all_eq_true]
    intro kv hkv
    obtain ⟨f, hf, hname⟩ := hmem kv hkv
    rw [List.any_eq_true]
    exact ⟨f, hf, by simp [hname]⟩

/-- The unflattener never complains about an unexpected keyword: every flat
key that matches no schema field is dropped before construction. -/
theorem buildRecordInstance_ne_unexpected :
    ∀ (n : Nat) (fields : List SField) (args : Args), sizeOf fields ≤ n →
      buildRecordInstance fields args ≠ .error .unexpectedKeyword := by
  intro n
  induction n using Nat.strong_induction_on with
  | _ n IH =>
    have hgo : ∀ (flds : List SField) (args2 : Args), sizeOf flds ≤ n →
        goFields flds args2 ≠ .error .unexpectedKeyword := by
      intro flds
      induction flds with
      | nil =>
        intro args2 _
        simp [goFields]
      | cons f rest ihrest =>
        intro args2 hsz
        have hszrest : sizeOf rest ≤ n := by
          have : sizeOf rest ≤ sizeOf (f :: rest) := by simp_arith
          omega
        obtain ⟨fname, fty, fal, fdf⟩ := f
        simp only [goFields]
        split
        · exact ihrest args2 hszrest
        · split
          · split
            · rename_i e herr
              intro hcontra
              injection hcontra with h'
              subst h'
              exact ihrest _ hszrest herr
            · simp
          · split
            · rename_i sub
              split
              · rename_i e herr
                intro hcontra
                injection hcontra with h'
                subst h'
                have hlt : sizeOf sub < n := by
                  have h1 : sizeOf sub + 1 ≤ sizeOf (SField.mk fname (FTy.frecord sub) fal fdf) := by
                    simp_arith
                  have h2 : sizeOf (SField.mk fname (FTy.frecord sub) fal fdf) ≤
                      sizeOf (SField.mk fname (FTy.frecord sub) fal fdf :: rest) := by
                    simp_arith
                  omega
                exact IH (sizeOf sub) hlt sub _ (le_refl _) herr
              · split
                · rename_i e herr
                  intro hcontra
                  injection hcontra with h'
                  subst h'
                  exact ihrest _ hszrest herr
                · simp
            · simp
    intro fields args hsz
    unfold buildRecordInstance
    split
    · rename_i e herr
      intro hcontra
      injection hcontra with h'
      subst h'
      have : sizeOf (sortFields fields) ≤ n := by
        rw [(sortFields_perm fields).sizeOf_eq_sizeOf]
        exact hsz
      exact hgo (sortFields fields) (sortArgs args) this herr
    · rename_i unpacked hok
      apply mkCls_ne_unexpected
      intro kv hkv
      obtain ⟨f, hf, hname⟩ := goFields_names _ _ _ hok kv hkv
      exact ⟨f, (sortFields_perm fields).mem_iff.mp hf, hname⟩

/-- Claim C10, counterexample: the flat key `"a"` neither equals the only
field name `"b"` nor begins with it, yet its presence changes the outcome —
with the stray key the nested scan collects nothing and construction fails
with a missing argument, without it the same mapping reconstructs fine.  So
a stray key is not inert: it can block the contiguous prefix scan. -/
theorem c10_counterexample :
    buildRecordInstance
        [.mk "b" (.frecord [.mk "x" (.fbase fun s => some (.vstr s)) [] none]) [] none]
        [("a", .vint 1), ("b_x", .vint 2)] = .error .missingArg
    ∧ buildRecordInstance
        [.mk "b" (.frecord [.mk "x" (.fbase fun s => some (.vstr s)) [] none]) [] none]
        [("b_x", .vint 2)] = .ok [("b", .inst [("x", .prim (.vint 2))])]
    ∧ ("a" : String) ≠ "b" ∧ startswith "b" "a" = false := by
  refine ⟨?_, ?_, by decide, by decide⟩
  · simp only [buildRecordInstance, goFields, mkCls, mkCls.go, sortFields, sortArgs,
      List.insertionSort, List.orderedInsert, keyLe, fieldLe, lexLt, startswith,
      strDropn, lookupKey, eraseKey, SField.name, SField.ty, SField.fdefault] <;> decide
  · simp only [buildRecordInstance, goFields, mkCls, mkCls.go, sortFields, sortArgs,
      List.insertionSort, List.orderedInsert, keyLe, fieldLe, lexLt, startswith,
      strDropn, lookupKey, eraseKey, SField.name, SField.ty, SField.fdefault] <;> decide

/-- Claim C10 (amended): the unflattener passes to the host-type constructor
only values resolved for schema fields — every keyword handed to the
constructor names a schema field, and the construction never rejects an
unexpected keyword.  (A stray key is itself never passed on, but, contrary
to the original claim, it is not inert: see the counterexample.) -/
theorem c10_amended (fields : List SField) (args : Args) :
    (∀ unpacked, goFields (sortFields fields) (sortArgs args) = .ok unpacked →
      ∀ kv ∈ unpacked, ∃ f ∈ fields, f.name = kv.1)
    ∧ buildRecordInstance fields args ≠ .error .unexpectedKeyword := by
  constructor
  · intro unpacked h kv hkv
    obtain ⟨f, hf, hn⟩ := goFields_names _ _ _ h kv hkv
    exact ⟨f, (sortFields_perm fields).mem_iff.mp hf, hn⟩
  · exact buildRecordInstance_ne_unexpected (sizeOf fields) fields args (le_refl _)

/-- Concrete instantiation of the amended C10 theorem. -/
theorem c10_amended_witness :
    ∃ f ∈ [SField.mk "b" (.frecord []) [] none], f.name = "b" :=
  (c10_amended [SField.mk "b" (.frecord []) [] none] [("b", .vint 0)]).1
    [("b", .prim (.vint 0))]
    (by simp [goFields, sortFields, sortArgs, List.insertionSort, List.orderedInsert,
      keyLe, fieldLe, lexLt, startswith, lookupKey, eraseKey, SField.name])
    ("b", .prim (.vint 0)) (by simp)

/-- Claim C1, counterexample: the key `"ab"` does not start with the field
name `"a"` followed by a separator (neither `"a-"` nor `"a_"` is a prefix of
it), and it does not equal the field name, yet the unflattener still treats
the field as nested and assigns it the recursively built (empty) instance —
the code tests `startswith(field_name)` with no separator. -/
theorem c1_counterexample :
    buildRecordInstance [.mk "a" (.frecord []) [] none] [("ab", .vint 7)] =
      .ok [("a", .inst [])]
    ∧ startswith "a-" "ab" = false ∧ startswith "a_" "ab" = false
    ∧ ("ab" : String) ≠ "a" := by
  refine ⟨?_, by decide, by decide, by decide⟩
  simp only [buildRecordInstance, goFields, mkCls, mkCls.go, sortFields, sortArgs,
    List.insertionSort, List.orderedInsert, keyLe, fieldLe, lexLt, startswith,
    strDropn, lookupKey, eraseKey, SField.name, SField.ty, SField.fdefault] <;> decide

/-! Claim C1 (amended): the field loop, characterised declaratively. -/

theorem lookupKey_mem {β : Type} (k : String) :
    ∀ (l : List (String × β)) (v : β), lookupKey k l = some v → (k, v) ∈ l
  | (k', w) :: rest, v, h => by
    simp only [lookupKey] at h
    by_cases hk : k' == k
    · rw [if_pos hk] at h
      injection h with h'
      subst h'
      rw [show k' = k from by simpa using hk]
      exact List.mem_cons_self _ _
    · rw [if_neg hk] at h
      exact List.mem_cons_of_mem _ (lookupKey_mem k rest v h)

theorem lookupKey_none {β : Type} (k : String) :
    ∀ l : List (String × β), lookupKey k l = none → ∀ kv ∈ l, kv.1 ≠ k
  | [], _, kv, hkv => by simp at hkv
  | (k', w) :: rest, h, kv, hkv => by
    simp only [lookupKey] at h
    by_cases hk : k' == k
    · rw [if_pos hk] at h
      cases h
    · rw [if_neg hk] at h
      rcases List.mem_cons.mp hkv with rfl | hmem
      · simpa using hk
      · exact lookupKey_none k rest h kv hmem

theorem eraseKey_sublist {β : Type} (k : String) :
    ∀ l : List (String × β), (eraseKey k l).Sublist l
  | [] => List.Sublist.refl _
  | (k', v) :: rest => by
    simp only [eraseKey]
    by_cases hk : k' == k
    · rw [if_pos hk]
      exact List.sublist_cons_self _ _
    · rw [if_neg hk]
      exact List.Sublist.cons₂ _ (eraseKey_sublist k rest)

/-- On a key-sorted mapping the first key that equals or extends the field
name is the exactly-equal one whenever the field name is present: a proper
extension of the name sorts strictly after it. -/
theorem find?_of_lookup_some (fname : String) :
    ∀ (args : Args), List.Sorted (fun a b => keyLe a b = true) args →
    ∀ v, lookupKey fname args = some v →
      args.find? (fun kv => kv.1 == fname || startswith fname kv.1) = some (fname, v)
  | (k, w) :: rest, hs, v, h => by
    simp only [lookupKey] at h
    rw [List.sorted_cons] at hs
    obtain ⟨hhead, htail⟩ := hs
    by_cases hk : k == fname
    · rw [if_pos hk] at h
      injection h with h'
      subst h'
      have hk' : k = fname := by simpa using hk
      subst hk'
      simp [List.find?]
    · rw [if_neg hk] at h
      have hmem : (fname, v) ∈ rest := lookupKey_mem fname rest v h
      by_cases hpre : startswith fname k = true
      · exfalso
        have hlt : lexLt fname.data k.data = true := by
          apply lexLt_of_prefixOf _ _ hpre
          intro he
          exact hk (by simp [show k = fname from String.ext (by simpa using he.symm)])
        have hle := hhead (fname, v) hmem
        simp only [keyLe, Bool.not_eq_true'] at hle
        rw [hle] at hlt
        cases hlt
      · have hpredf : ((k, w).1 == fname || startswith fname (k, w).1) = false := by
          simp only [Bool.or_eq_false_iff]
          exact ⟨by simpa using hk, by simpa using hpre⟩
        simp only [List.find?, hpredf]
        exact find?_of_lookup_some fname rest htail v h

mutual

/-- The amended claim C1, as a stand-alone declarative definition: a field
takes a direct value when its name occurs among the flat keys; otherwise it
is treated as nested exactly when some flat key starts with the field name
(no separator), in which case the maximal front run of the remaining sorted
keys starting with the field name is collected, the field name plus one code
point is stripped, and the nested schema is reconstructed recursively. -/
def reconstructSpec (fields : List SField) (args : Args) :
    Except RErr (List (String × InstVal)) :=
  match specFields (sortFields fields) (sortArgs args) with
  | .error e => .error e
  | .ok unpacked => mkCls fields unpacked
termination_by (sizeOf fields, 1)
decreasing_by
  have h : sizeOf (sortFields fields) = sizeOf fields :=
    (List.perm_insertionSort _ fields).sizeOf_eq_sizeOf
  simp only [h]
  exact Prod.Lex.right _ (by omega)

/-- The field loop of the amended claim C1 (membership-based case split). -/
def specFields : List SField → Args → Except RErr (List (String × InstVal))
  | [], _ => .ok []
  | .mk fname fty _fal _fdf :: rest, args =>
    match lookupKey fname args with
    | some v =>
      match specFields rest (eraseKey fname args) with
      | .error e => .error e
      | .ok u => .ok ((fname, .prim v) :: u)
    | none =>
      if args.any (fun kv => startswith fname kv.1) then
        let run := args.takeWhile (fun kv => startswith fname kv.1)
        let rem := args.dropWhile (fun kv => startswith fname kv.1)
        let subArgs := run.map (fun kv => (strDropn kv.1 (fname.length + 1), kv.2))
        match fty with
        | .frecord sub =>
          match reconstructSpec sub subArgs with
          | .error e => .error e
          | .ok v =>
            match specFields rest rem with
            | .error e => .error e
            | .ok u => .ok ((fname, .inst v) :: u)
        | _ => .error .notARecordClass
      else specFields rest args
termination_by fields _ => (sizeOf fields, 0)
decreasing_by
  all_goals simp_arith [Prod.lex_iff]

end

/-- The imperative field loop agrees with the declarative amended-claim loop
on any mapping bounded in size; stated over all schemas and sorted
mappings. -/
theorem build_eq_spec :
    ∀ (n : Nat) (fields : List SField) (args : Args), sizeOf fields ≤ n →
      buildRecordInstance fields args = reconstructSpec fields args := by
  intro n
  induction n using Nat.strong_induction_on with
  | _ n IH =>
    have hgo : ∀ (flds : List SField) (args2 : Args), sizeOf flds ≤ n →
        List.Sorted (fun a b => keyLe a b = true) args2 →
        goFields flds args2 = specFields flds args2 := by
      intro flds
      induction flds with
      | nil =>
        intro args2 _ _
        simp [goFields, specFields]
      | cons f rest ihrest =>
        intro args2 hsz hsorted
        have hszrest : sizeOf rest ≤ n := by
          have : sizeOf rest ≤ sizeOf (f :: rest) := by simp_arith
          omega
        obtain ⟨fname, fty, fal, fdf⟩ := f
        simp only [goFields, specFields]
        rcases hlk : lookupKey fname args2 with _ | v
        · rcases hfind : args2.find? (fun kv => kv.1 == fname || startswith fname kv.1)
              with _ | kv
          · have hany : args2.any (fun kv => startswith fname kv.1) = false := by
              rw [List.any_eq_false]
              intro kv hkv
              have := List.find?_eq_none.mp hfind kv hkv
              simp only [Bool.or_eq_true, not_or] at this
              simpa using this.2
            rw [hfind, hany]
            simp only [Bool.false_eq_true, if_false]
            exact ihrest args2 hszrest hsorted
          · have hpred := List.find?_some hfind
            have hmem := List.mem_of_find?_eq_some hfind
            have hne : (kv.1 == fname) = false := by
              rcases h : kv.1 == fname with _ | _
              · rfl
              · exact absurd (by simpa using h) (lookupKey_none fname args2 hlk kv hmem)
            have hpre : startswith fname kv.1 = true := by
              rw [Bool.or_eq_true, hne] at hpred
              simpa using hpred
            have hany : args2.any (fun kv => startswith fname kv.1) = true := by
              rw [List.any_eq_true]
              exact ⟨kv, hmem, hpre⟩
            rw [hfind]
            simp only [hne, Bool.false_eq_true, if_false, hany, if_true]
            rcases fty with _ | _ | _ | _ | sub
            · rfl
            · rfl
            · rfl
            · rfl
            · have hsub : sizeOf sub < n := by
                have h1 : sizeOf sub + 1 ≤ sizeOf (SField.mk fname (FTy.frecord sub) fal fdf) := by
                  simp_arith
                have h2 : sizeOf (SField.mk fname (FTy.frecord sub) fal fdf) ≤
                    sizeOf (SField.mk fname (FTy.frecord sub) fal fdf :: rest) := by
                  simp_arith
                omega
              dsimp only
              rw [IH (sizeOf sub) hsub sub _ (le_refl _)]
              have hrem : goFields rest (args2.dropWhile fun kv => startswith fname kv.1) =
                  specFields rest (args2.dropWhile fun kv => startswith fname kv.1) :=
                ihrest _ hszrest
                  (List.Pairwise.sublist (List.dropWhile_sublist _) hsorted)
              rw [hrem]
        · have hfind := find?_of_lookup_some fname args2 hsorted v hlk
          rw [hfind]
          simp only [beq_self_eq_true, if_true]
          have : goFields rest (eraseKey fname args2) =
              specFields rest (eraseKey fname args2) :=
            ihrest _ hszrest (List.Pairwise.sublist (eraseKey_sublist fname args2) hsorted)
          rw [this]
    intro fields args hsz
    unfold buildRecordInstance reconstructSpec
    rw [hgo (sortFields fields) (sortArgs args)
      (by rw [(sortFields_perm fields).sizeOf_eq_sizeOf]; exact hsz)
      (sortArgs_sorted args)]

/-- Claim C1 (amended): the unflattener behaves exactly as the declarative
description `reconstructSpec` states — fields sorted by name over keys
sorted by key, an exactly-equal key is the direct value, and a field is
treated as nested exactly when some flat key starts with the field name
itself (no separator), collecting the maximal front run of remaining sorted
keys that start with the field name, stripping the name plus one code point,
and recursing on the nested schema. -/
theorem c1_amended (fields : List SField) (args : Args) :
    buildRecordInstance fields args = reconstructSpec fields args :=
  build_eq_spec (sizeOf fields) fields args (le_refl _)

/-! The dispatch registry (`shogun/dispatch/registry.py`).

A dispatch rule is identified by `rid` (Python compares the registered class
objects by identity; distinct rule classes are distinct identifiers), carries
the `priority` class attribute, the `is_type` test and the `build_actions`
builder (abstracted over its result type).  The registry state is the
`_dispatch` dict: an insertion-ordered association list from priority to the
bucket of rules registered under it. -/

structure DRule (β : Type) where
  priority : Nat
  rid : String
  isType : FTy → Bool
  build : SField → β

/-- The `_dispatch` table of `TypeRegistry`. -/
abbrev Registry (β : Type) := List (Nat × List (DRule β))

/-- Python dict lookup on the priority table. -/
def lookupP {β : Type} (p : Nat) : Registry β → Option (List (DRule β))
  | [] => none
  | (q, b) :: rest => if q = p then some b else lookupP p rest

/-- Python `list.remove` on a bucket (first occurrence; rules compare by
identity, i.e. `rid`), with the surrounding `try`/`except ValueError: pass`. -/
def eraseRid {β : Type} (rid : String) : List (DRule β) → List (DRule β)
  | [] => []
  | r :: rest => if r.rid = rid then rest else r :: eraseRid rid rest

/-- `TypeRegistry.register`: `self._dispatch.setdefault(priority, []).append(d)`. -/
def registerR {β : Type} (r : DRule β) (reg : Registry β) : Registry β :=
  if reg.any (fun pb => pb.1 == r.priority) then
    reg.map (fun pb => if pb.1 = r.priority then (pb.1, pb.2 ++ [r]) else pb)
  else
    reg ++ [(r.priority, [r])]

/-- `TypeRegistry.deregister`: remove the rule from its priority's bucket,
silently doing nothing when it is absent. -/
def deregisterR {β : Type} (r : DRule β) (reg : Registry β) : Registry β :=
  reg.map (fun pb => if pb.1 = r.priority then (pb.1, eraseRid r.rid pb.2) else pb)

/-- One mutation of the registry. -/
inductive RegOp (β : Type) where
  | reg (r : DRule β)
  | dereg (r : DRule β)
  | clear

/-- Run a sequence of register/deregister/clear calls from the initial empty
table (the reachable registry states). -/
def execOps {β : Type} (ops : List (RegOp β)) : Registry β :=
  ops.foldl
    (fun reg op =>
      match op with
      | .reg r => registerR r reg
      | .dereg r => deregisterR r reg
      | .clear => []) []

instance {β : Type} : DecidableRel (fun (a b : Nat × List (DRule β)) => b.1 ≤ a.1) :=
  fun _ _ => inferInstanceAs (Decidable _)

instance {β : Type} : IsTotal (Nat × List (DRule β)) (fun a b => b.1 ≤ a.1) :=
  ⟨fun a b => Nat.le_total b.1 a.1⟩

instance {β : Type} : IsTrans (Nat × List (DRule β)) (fun a b => b.1 ≤ a.1) :=
  ⟨fun _ _ _ hab hbc => Nat.le_trans hbc hab⟩

/-- `TypeRegistry.dispatchers`: buckets sorted by priority descending
(`sorted(self._dispatch.items(), reverse=True)`; priorities are unique so
the tuple comparison never reaches the bucket lists), each bucket yielded in
insertion order. -/
def dispatchersInOrder {β : Type} (reg : Registry β) : List (DRule β) :=
  (List.insertionSort (fun a b => b.1 ≤ a.1) reg).flatMap (fun pb => pb.2)

/-- The error raised by `TypeRegistry.build_actions` when no dispatcher's
`is_type` accepts the field's type (`ValueError: Unexpected type for
field`). -/
inductive DispErr : Type where
  | noMatchingDispatcher
  deriving DecidableEq, Repr

/-- `TypeRegistry.build_actions`: iterate the priority-ordered rules and
return the first matching rule's build result. -/
def buildActionsR {β : Type} (reg : Registry β) (f : SField) : Except DispErr β :=
  match (dispatchersInOrder reg).find? (fun r => r.isType f.ty) with
  | some r => .ok (r.build f)
  | none => .error .noMatchingDispatcher

/-- Structural invariant of reachable registry states: every rule sits in
the bucket of its own priority, and the priority keys are distinct. -/
def RegInv {β : Type} (reg : Registry β) : Prop :=
  (∀ pb ∈ reg, ∀ r ∈ pb.2, r.priority = pb.1) ∧ (reg.map Prod.fst).Nodup

theorem regInv_empty {β : Type} : RegInv ([] : Registry β) := by
  constructor
  · intro pb hpb
    simp at hpb
  · simp

theorem eraseRid_sublist {β : Type} (rid : String) :
    ∀ l : List (DRule β), (eraseRid rid l).Sublist l
  | [] => List.Sublist.refl _
  | r :: rest => by
    simp only [eraseRid]
    by_cases hx : r.rid = rid
    · rw [if_pos hx]
      exact List.sublist_cons_self _ _
    · rw [if_neg hx]
      exact List.Sublist.cons₂ _ (eraseRid_sublist rid rest)

theorem regInv_register {β : Type} (r : DRule β) (reg : Registry β) (h : RegInv reg) :
    RegInv (registerR r reg) := by
  obtain ⟨hmem, hnd⟩ := h
  unfold registerR
  by_cases hany : reg.any (fun pb => pb.1 == r.priority)
  · rw [if_pos hany]
    constructor
    · intro pb hpb r' hr'
      rw [List.mem_map] at hpb
      obtain ⟨pb₀, hpb₀, heq⟩ := hpb
      by_cases hp : pb₀.1 = r.priority
      · rw [if_pos hp] at heq
        subst heq
        simp only at hr' ⊢
        rcases List.mem_append.mp hr' with hin | hin
        · exact hmem pb₀ hpb₀ r' hin
        · simp only [List.mem_singleton] at hin
          subst hin
          exact hp.symm
      · rw [if_neg hp] at heq
        subst heq
        exact hmem pb₀ hpb₀ r' hr'
    · have heqmap : (List.map Prod.fst
          (reg.map (fun pb => if pb.1 = r.priority then (pb.1, pb.2 ++ [r]) else pb))) =
          reg.map Prod.fst := by
        rw [List.map_map]
        apply List.map_congr_left
        intro pb _
        by_cases hp : pb.1 = r.priority
        · simp [hp]
        · simp [hp]
      rw [heqmap]
      exact hnd
  · rw [if_neg hany]
    constructor
    · intro pb hpb r' hr'
      rcases List.mem_append.mp hpb with hin | hin
      · exact hmem pb hin r' hr'
      · simp only [List.mem_singleton] at hin
        subst hin
        simp only [List.mem_singleton] at hr'
        subst hr'
        rfl
    · rw [List.map_append, List.nodup_append]
      refine ⟨hnd, by simp, ?_⟩
      intro p hp
      simp only [List.map_cons, List.map_nil, List.mem_cons, List.not_mem_nil, or_false]
      intro hq
      subst hq
      rw [List.mem_map] at hp
      obtain ⟨pb, hpb, hfst⟩ := hp
      apply hany
      rw [List.any_eq_true]
      exact ⟨pb, hpb, by simp [hfst]⟩

theorem regInv_deregister {β : Type} (r : DRule β) (reg : Registry β) (h : RegInv reg) :
    RegInv (deregisterR r reg) := by
  obtain ⟨hmem, hnd⟩ := h
  unfold deregisterR
  constructor
  · intro pb hpb r' hr'
    rw [List.mem_map] at hpb
    obtain ⟨pb₀, hpb₀, heq⟩ := hpb
    by_cases hp : pb₀.1 = r.priority
    · rw [if_pos hp] at heq
      subst heq
      simp only at hr' ⊢
      exact hmem pb₀ hpb₀ r' ((eraseRid_sublist r.rid pb₀.2).mem hr')
    · rw [if_neg hp] at heq
      subst heq
      exact hmem pb₀ hpb₀ r' hr'
  · have heqmap : (List.map Prod.fst
        (reg.map (fun pb => if pb.1 = r.priority then (pb.1, eraseRid r.rid pb.2) else pb))) =
        reg.map Prod.fst := by
      rw [List.map_map]
      apply List.map_congr_left
      intro pb _
      by_cases hp : pb.1 = r.priority
      · simp [hp]
      · simp [hp]
    rw [heqmap]
    exact hnd

theorem regInv_execOps {β : Type} (ops : List (RegOp β)) : RegInv (execOps ops) := by
  suffices h : ∀ (reg : Registry β), RegInv reg →
      RegInv (ops.foldl (fun reg op =>
        match op with
        | .reg r => registerR r reg
        | .dereg r => deregisterR r reg
        | .clear => []) reg) by
    exact h [] regInv_empty
  induction ops with
  | nil => intro reg h; exact h
  | cons op rest ih =>
    intro reg h
    rcases op with r | r | _
    · exact ih _ (regInv_register r reg h)
    · exact ih _ (regInv_deregister r reg h)
    · exact ih _ regInv_empty

/-! Claim C4: ordering of the dispatcher enumeration over all reachable
registry states. -/

/-- The bucket currently registered under a priority (empty when the key is
absent). -/
def bucketAt {β : Type} (reg : Registry β) (p : Nat) : List (DRule β) :=
  (lookupP p reg).getD []

/-- The per-priority projection of a call history: what the bucket of
priority `p` must hold after the history ran (appends in registration order,
first-occurrence removal, clearing). -/
def histBucket {β : Type} (p : Nat) (ops : List (RegOp β)) : List (DRule β) :=
  ops.foldl
    (fun acc op =>
      match op with
      | .reg r => if r.priority = p then acc ++ [r] else acc
      | .dereg r => if r.priority = p then eraseRid r.rid acc else acc
      | .clear => []) []

theorem mapBucket_cons {β : Type} (g : List (DRule β) → List (DRule β)) (q k : Nat)
    (b : List (DRule β)) (rest : Registry β) :
    ((k, b) :: rest).map (fun pb => if pb.1 = q then (pb.1, g pb.2) else pb) =
      (if k = q then (k, g b) else (k, b)) ::
        rest.map (fun pb => if pb.1 = q then (pb.1, g pb.2) else pb) := rfl

theorem lookupP_cons_pos {β : Type} {k p : Nat} (h : k = p) (b : List (DRule β))
    (rest : Registry β) : lookupP p ((k, b) :: rest) = some b := by
  simp [lookupP, h]

theorem lookupP_cons_neg {β : Type} {k p : Nat} (h : ¬k = p) (b : List (DRule β))
    (rest : Registry β) : lookupP p ((k, b) :: rest) = lookupP p rest := by
  simp [lookupP, h]

theorem lookupP_mapBucket {β : Type} (g : List (DRule β) → List (DRule β)) (q p : Nat) :
    ∀ reg : Registry β,
      lookupP p (reg.map (fun pb => if pb.1 = q then (pb.1, g pb.2) else pb)) =
        (lookupP p reg).map (fun b => if p = q then g b else b)
  | [] => rfl
  | (k, b) :: rest => by
    rw [mapBucket_cons]
    by_cases hkq : k = q
    · rw [if_pos hkq]
      by_cases hkp : k = p
      · rw [lookupP_cons_pos hkp, lookupP_cons_pos hkp, Option.map_some']
        have hpq : p = q := by rw [← hkp, hkq]
        rw [if_pos hpq]
      · rw [lookupP_cons_neg hkp, lookupP_cons_neg hkp]
        exact lookupP_mapBucket g q p rest
    · rw [if_neg hkq]
      by_cases hkp : k = p
      · rw [lookupP_cons_pos hkp, lookupP_cons_pos hkp, Option.map_some']
        rw [if_neg (fun h => hkq (by rw [hkp, h]))]
      · rw [lookupP_cons_neg hkp, lookupP_cons_neg hkp]
        exact lookupP_mapBucket g q p rest

theorem lookupP_append_single {β : Type} (q p : Nat) (c : List (DRule β)) :
    ∀ reg : Registry β,
      lookupP p (reg ++ [(q, c)]) =
        match lookupP p reg with
        | some b => some b
        | none => if q = p then some c else none
  | [] => by
    simp only [List.nil_append, lookupP]
  | (k, b) :: rest => by
    simp only [List.cons_append, lookupP]
    by_cases hk : k = p
    · rw [if_pos hk, if_pos hk]
    · rw [if_neg hk, if_neg hk]
      exact lookupP_append_single q p c rest

theorem lookupP_none_of_any_false {β : Type} (q : Nat) :
    ∀ reg : Registry β, reg.any (fun pb => pb.1 == q) = false → lookupP q reg = none
  | [], _ => rfl
  | (k, b) :: rest, h => by
    simp only [List.any_cons, Bool.or_eq_false_iff] at h
    simp only [lookupP]
    rw [if_neg (by simpa using h.1)]
    exact lookupP_none_of_any_false q rest h.2

theorem lookupP_some_of_any_true {β : Type} (q : Nat) :
    ∀ reg : Registry β, reg.any (fun pb => pb.1 == q) = true → ∃ b, lookupP q reg = some b
  | [], h => by simp at h
  | (k, b) :: rest, h => by
    simp only [lookupP]
    by_cases hk : k = q
    · rw [if_pos hk]
      exact ⟨b, rfl⟩
    · rw [if_neg hk]
      simp only [List.any_cons, Bool.or_eq_true] at h
      rcases h with h | h
      · exact absurd (by simpa using h) hk
      · exact lookupP_some_of_any_true q rest h

theorem bucketAt_registerR {β : Type} (r : DRule β) (reg : Registry β) (p : Nat) :
    bucketAt (registerR r reg) p =
      if r.priority = p then bucketAt reg p ++ [r] else bucketAt reg p := by
  unfold registerR bucketAt
  by_cases hany : reg.any (fun pb => pb.1 == r.priority)
  · rw [if_pos hany, lookupP_mapBucket (fun bb => bb ++ [r]) r.priority p reg]
    rcases hlk : lookupP p reg with _ | b
    · simp only [Option.map_none, Option.getD_none]
      by_cases hp : r.priority = p
      · subst hp
        obtain ⟨b, hb⟩ := lookupP_some_of_any_true r.priority reg hany
        rw [hb] at hlk
        cases hlk
      · rw [if_neg hp]
        rfl
    · simp only [Option.map_some', Option.getD_some]
      by_cases hp : p = r.priority
      · rw [if_pos hp, if_pos hp.symm]
      · rw [if_neg hp, if_neg fun h => hp h.symm]
  · rw [if_neg hany, lookupP_append_single]
    have hf : reg.any (fun pb => pb.1 == r.priority) = false := by
      rw [← Bool.not_eq_true]
      exact hany
    have hnone := lookupP_none_of_any_false r.priority reg hf
    rcases hlk : lookupP p reg with _ | b
    · by_cases hp : r.priority = p
      · rw [if_pos hp, if_pos hp]
        simp
      · rw [if_neg hp, if_neg hp]
    · by_cases hp : r.priority = p
      · subst hp
        rw [hnone] at hlk
        cases hlk
      · simp [hp]

theorem bucketAt_deregisterR {β : Type} (r : DRule β) (reg : Registry β) (p : Nat) :
    bucketAt (deregisterR r reg) p =
      if r.priority = p then eraseRid r.rid (bucketAt reg p) else bucketAt reg p := by
  unfold deregisterR bucketAt
  rw [lookupP_mapBucket (eraseRid r.rid) r.priority p reg]
  rcases hlk : lookupP p reg with _ | b
  · simp only [Option.map_none, Option.getD_none]
    by_cases hp : r.priority = p
    · rw [if_pos hp]
      rfl
    · rw [if_neg hp]
      rfl
  · simp only [Option.map_some', Option.getD_some]
    by_cases hp : p = r.priority
    · rw [if_pos hp, if_pos hp.symm]
    · rw [if_neg hp, if_neg fun h => hp h.symm]

theorem bucketAt_execOps {β : Type} (ops : List (RegOp β)) (p : Nat) :
    bucketAt (execOps ops) p = histBucket p ops := by
  unfold execOps histBucket
  suffices h : ∀ (reg : Registry β) (acc : List (DRule β)), bucketAt reg p = acc →
      bucketAt (ops.foldl
        (fun reg op =>
          match op with
          | .reg r => registerR r reg
          | .dereg r => deregisterR r reg
          | .clear => []) reg) p =
      ops.foldl
        (fun acc op =>
          match op with
          | .reg r => if r.priority = p then acc ++ [r] else acc
          | .dereg r => if r.priority = p then eraseRid r.rid acc else acc
          | .clear => []) acc by
    exact h [] [] rfl
  induction ops with
  | nil =>
    intro reg acc h
    simpa using h
  | cons op rest ih =>
    intro reg acc h
    simp only [List.foldl_cons]
    rcases op with r | r | _
    · apply ih
      rw [bucketAt_registerR, h]
    · apply ih
      rw [bucketAt_deregisterR, h]
    · apply ih
      rfl

theorem const_priorities_sorted {β : Type} :
    ∀ (l : List (DRule β)) (p : Nat), (∀ r ∈ l, r.priority = p) →
      List.Pairwise (fun a b => b ≤ a) (l.map DRule.priority)
  | [], _, _ => by simp
  | r :: rs, p, hl => by
    rw [List.map_cons, List.pairwise_cons]
    constructor
    · intro x hx
      rw [List.mem_map] at hx
      obtain ⟨r', hr', rfl⟩ := hx
      rw [hl r (List.mem_cons_self _ _), hl r' (List.mem_cons_of_mem _ hr')]
    · exact const_priorities_sorted rs p (fun r' h' => hl r' (List.mem_cons_of_mem _ h'))

theorem flat_priorities_sorted {β : Type} :
    ∀ bs : Registry β, List.Sorted (fun a b => b.1 ≤ a.1) bs →
      (∀ pb ∈ bs, ∀ r ∈ pb.2, r.priority = pb.1) →
      List.Sorted (fun a b => b ≤ a) ((bs.flatMap (fun pb => pb.2)).map DRule.priority)
  | [], _, _ => by simp
  | pb :: rest, hs, hinv => by
    obtain ⟨hhead, htail⟩ := List.sorted_cons.mp hs
    simp only [List.flatMap_cons, List.map_append]
    show List.Pairwise _ _
    rw [List.pairwise_append]
    refine ⟨?_, ?_, ?_⟩
    · exact const_priorities_sorted pb.2 pb.1 (hinv pb (List.mem_cons_self _ _))
    · exact flat_priorities_sorted rest htail
        (fun pb' h' => hinv pb' (List.mem_cons_of_mem _ h'))
    · intro a ha c hc
      rw [List.mem_map] at ha hc
      obtain ⟨r, hr, rfl⟩ := ha
      obtain ⟨r', hr', rfl⟩ := hc
      rw [List.mem_flatMap] at hr'
      obtain ⟨pb', hpb', hra⟩ := hr'
      rw [hinv pb (List.mem_cons_self _ _) r hr,
        hinv pb' (List.mem_cons_of_mem _ hpb') r' hra]
      exact hhead pb' hpb'

/-- Claim C4, part 1: for every reachable state, the enumeration's
priorities never increase. -/
theorem dispatchers_sorted {β : Type} (reg : Registry β) (hinv : RegInv reg) :
    List.Sorted (fun a b => b ≤ a) ((dispatchersInOrder reg).map DRule.priority) := by
  unfold dispatchersInOrder
  apply flat_priorities_sorted _ (List.sorted_insertionSort _ reg)
  intro pb hpb
  exact hinv.1 pb ((List.perm_insertionSort _ reg).mem_iff.mp hpb)

theorem lookupP_mem {β : Type} (p : Nat) :
    ∀ (reg : Registry β) (b : List (DRule β)), lookupP p reg = some b → (p, b) ∈ reg
  | (k, c) :: rest, b, h => by
    simp only [lookupP] at h
    by_cases hk : k = p
    · rw [if_pos hk] at h
      injection h with h'
      subst h' hk
      exact List.mem_cons_self _ _
    · rw [if_neg hk] at h
      exact List.mem_cons_of_mem _ (lookupP_mem p rest b h)

theorem flat_getLast {β : Type} :
    ∀ bs : Registry β, List.Sorted (fun a b => b.1 ≤ a.1) bs →
      (List.map Prod.fst bs).Nodup →
      ∀ (p : Nat) (b : List (DRule β)) (dflt : DRule β),
        (p, b) ∈ bs → b.getLast? = some dflt →
        (∀ pb ∈ bs, pb.2 ≠ [] → p ≤ pb.1) →
        (bs.flatMap (fun pb => pb.2)).getLast? = some dflt
  | [], _, _, p, b, dflt, hmem, _, _ => by simp at hmem
  | pb :: rest, hs, hnd, p, b, dflt, hmem, hlast, hmin => by
    obtain ⟨hhead, htail⟩ := List.sorted_cons.mp hs
    rw [List.map_cons, List.nodup_cons] at hnd
    rcases List.mem_cons.mp hmem with heq | hmem'
    · obtain rfl := heq.symm
      have hrest : ∀ pb' ∈ rest, pb'.2 = [] := by
        intro pb' hpb'
        by_contra hne
        have h1 : p ≤ pb'.1 := hmin pb' (List.mem_cons_of_mem _ hpb') hne
        have h2 : pb'.1 ≤ p := hhead pb' hpb'
        have h3 : pb'.1 = p := Nat.le_antisymm h2 h1
        apply hnd.1
        rw [show (p, b).1 = p from rfl, ← h3]
        exact List.mem_map_of_mem _ hpb'
      have hflat : rest.flatMap (fun pb => pb.2) = [] := by
        rw [List.flatMap_eq_nil_iff]
        exact hrest
      simp only [List.flatMap_cons]
      rw [hflat, List.append_nil]
      exact hlast
    · have hres := flat_getLast rest htail hnd.2 p b dflt hmem' hlast
        (fun pb' h' hne => hmin pb' (List.mem_cons_of_mem _ h') hne)
      simp only [List.flatMap_cons]
      rw [List.getLast?_append, hres]
      rfl

/-- Claim C4 (amended): over every reachable registry state — every sequence
of register/deregister/clear calls from the empty table — the enumeration is
non-increasing by priority; the bucket of each priority holds exactly the
per-priority projection of the call history (appends in registration order,
first-occurrence removal), so equal-priority rules appear in insertion
order; and the default catch-all rule is the last element whenever it is the
last rule of its own bucket and every other nonempty bucket has priority at
least its own (by key uniqueness, strictly greater).  The original claim's
unconditional "default is always last" fails: see the counterexample. -/
theorem c4_amended {β : Type} (ops : List (RegOp β)) :
    List.Sorted (fun a b => b ≤ a)
        ((dispatchersInOrder (execOps ops)).map DRule.priority)
    ∧ (∀ p, bucketAt (execOps ops) p = histBucket p ops)
    ∧ (∀ (dflt : DRule β) (b : List (DRule β)),
        lookupP dflt.priority (execOps ops) = some b →
        b.getLast? = some dflt →
        (∀ pb ∈ execOps ops, pb.2 ≠ [] → dflt.priority ≤ pb.1) →
        (dispatchersInOrder (execOps ops)).getLast? = some dflt) := by
  have hinv := regInv_execOps ops
  refine ⟨dispatchers_sorted _ hinv, fun p => bucketAt_execOps ops p, ?_⟩
  intro dflt b hlk hlast hmin
  unfold dispatchersInOrder
  apply flat_getLast _ (List.sorted_insertionSort _ _)
    (((List.perm_insertionSort _ _).map Prod.fst).nodup_iff.mpr hinv.2)
    dflt.priority b dflt
    ((List.perm_insertionSort _ _).mem_iff.mpr (lookupP_mem _ _ _ hlk)) hlast
  intro pb hpb hne
  exact hmin pb ((List.perm_insertionSort _ _).mem_iff.mp hpb) hne

/-- The program's catch-all rule `DispatcherDefault`
(`priority = DispatchPriority.LOWEST = 1`, `is_type` accepts everything),
its build result abstracted to the field name. -/
def defaultRule : DRule (List String) :=
  ⟨1, "DispatcherDefault", fun _ => true, fun f => [f.name]⟩

/-- The program's boolean rule `DispatcherBool` (`priority = 1`, the same
bucket as the default rule). -/
def boolRule : DRule (List String) :=
  ⟨1, "DispatcherBool",
    fun t => match t with | .fbool => true | _ => false,
    fun f => [f.name]⟩

/-- Claim C4, counterexample: registering the default catch-all rule and
then the boolean rule — both declare priority 1, exactly as
`DispatchPriority.LOWEST` and `DispatcherBool.priority` do — is a reachable
state in which the default rule is *not* the last element of the
enumeration. -/
theorem c4_counterexample :
    ((dispatchersInOrder (execOps [RegOp.reg defaultRule, RegOp.reg boolRule])).map
        (fun r => r.rid)) = ["DispatcherDefault", "DispatcherBool"]
    ∧ ((dispatchersInOrder (execOps [RegOp.reg defaultRule, RegOp.reg boolRule])).getLast?.map
        (fun r => r.rid)) = some "DispatcherBool"
    ∧ defaultRule.priority = 1 ∧ boolRule.priority = 1
    ∧ ("DispatcherBool" : String) ≠ "DispatcherDefault" :=
  ⟨rfl, rfl, rfl, rfl, by decide⟩

/-- Concrete instantiation of the amended C4 theorem: with only the default
rule registered it is indeed last. -/
theorem c4_amended_witness :
    (dispatchersInOrder (execOps [RegOp.reg defaultRule])).getLast? = some defaultRule :=
  (c4_amended [RegOp.reg defaultRule]).2.2 defaultRule [defaultRule] rfl rfl
    (by
      intro pb hpb hne
      obtain rfl := List.mem_singleton.mp hpb
      exact Nat.le_refl _)


/-! Claim C5: first-match dispatch resolution. -/

theorem find?_first_match {α : Type} (p : α → Bool) :
    ∀ (l1 : List α) (r : α) (l2 : List α), (∀ x ∈ l1, p x = false) → p r = true →
      (l1 ++ r :: l2).find? p = some r
  | [], r, l2, _, hr => by
    simp only [List.nil_append, List.find?]
    rw [hr]
  | x :: l1, r, l2, hl, hr => by
    have hx : p x = false := hl x (List.mem_cons_self _ _)
    simp only [List.cons_append, List.find?]
    rw [hx]
    exact find?_first_match p l1 r l2 (fun y hy => hl y (List.mem_cons_of_mem _ hy)) hr

/-- Claim C5: `TypeRegistry.build_actions` returns the build result of the
first rule — in the priority-descending, insertion-ordered enumeration —
whose type-match test accepts the field's type, and fails with the
no-matching-dispatcher error when no registered rule's test accepts it. -/
theorem c5_registry_first_match {β : Type} (reg : Registry β) (f : SField) :
    (∀ (l1 : List (DRule β)) (r : DRule β) (l2 : List (DRule β)),
        dispatchersInOrder reg = l1 ++ r :: l2 →
        (∀ r' ∈ l1, r'.isType f.ty = false) → r.isType f.ty = true →
        buildActionsR reg f = .ok (r.build f))
    ∧ ((∀ r ∈ dispatchersInOrder reg, r.isType f.ty = false) →
        buildActionsR reg f = .error .noMatchingDispatcher) := by
  constructor
  · intro l1 r l2 hsplit hl hr
    unfold buildActionsR
    rw [hsplit, find?_first_match _ l1 r l2 hl hr]
  · intro hall
    unfold buildActionsR
    rw [List.find?_eq_none.mpr (fun x hx => by simp [hall x hx])]

/-- Concrete instantiation of the C5 theorem: with the default catch-all
registered before the boolean rule in the same bucket, a boolean field is
resolved by the default rule — the first match wins. -/
theorem c5_registry_first_match_witness :
    buildActionsR (execOps [RegOp.reg defaultRule, RegOp.reg boolRule])
        (SField.mk "flag" .fbool [] none) = .ok ["flag"] :=
  (c5_registry_first_match (execOps [RegOp.reg defaultRule, RegOp.reg boolRule])
      (SField.mk "flag" .fbool [] none)).1
    [] defaultRule [boolRule] rfl (fun r' h => absurd h (List.not_mem_nil r')) rfl


/-! Claim C6: the boolean dispatcher (`shogun/dispatch/concrete/bool.py`),
together with the kwargs plumbing of `shogun/argparse_/utils.py`
(`common_kwargs`) and `shogun/utils.py` (`filter_dict`). -/

/-- The argparse `action` values the boolean rule can emit. -/
inductive ArgAction : Type where
  | store_true
  | store_false
  deriving DecidableEq, Repr

/-- An entry of the parser-option kwargs dict: a passthrough metadata
payload (opaque), the attached `type` converter, or the `action`. -/
inductive KwV : Type where
  | fromMeta (tag : String)
  | typeConv
  | action (a : ArgAction)
  deriving DecidableEq, Repr

/-- Python `filter_dict(dct, remove_keys)`: drop the listed keys, keeping
order. -/
def filterDict {α : Type} (remove : List String) (d : List (String × α)) :
    List (String × α) :=
  d.filter (fun kv => !(remove.contains kv.1))

/-- Python `{**d, k: v}`: update in place when the key exists, else append. -/
def dictInsert {α : Type} (k : String) (v : α) (d : List (String × α)) :
    List (String × α) :=
  if d.any (fun kv => kv.1 == k) then
    d.map (fun kv => if kv.1 = k then (k, v) else kv)
  else
    d ++ [(k, v)]

/-- Python truthiness of a parsed value (`field.default and ...`). -/
def pyTruthy : PVal → Bool
  | .vnone => false
  | .vstr s => !(s == "")
  | .vint n => !(n == 0)
  | .vbool b => b
  | .vfloat lit => !(lit == "0.0")
  | .venum _ => true

/-- The surface of `RecordField` consumed by the boolean rule: name,
default (`none` = `dataclasses.MISSING`, so `has_default()` is `isSome`)
and metadata (payloads opaque). -/
structure BRecordField : Type where
  name : String
  bdefault : Option PVal
  metadata : List (String × String)

/-- `common_kwargs(field)`: the `type` converter entry followed by the
metadata minus `aliases`/`converter` (a later metadata `type` key would
override the converter entry, as in a Python dict literal). -/
def common_kwargsB (f : BRecordField) : List (String × KwV) :=
  ((filterDict ["aliases", "converter"] f.metadata).map
      (fun kv => (kv.1, KwV.fromMeta kv.2))).foldl
    (fun acc kv => dictInsert kv.1 kv.2 acc) [("type", KwV.typeConv)]

/-- `DispatcherBool.build_action`'s kwargs:
`{**filter_dict(common_kwargs(field), {"type"}), "action": "store_false" if
field.default and field.has_default() else "store_true"}`. -/
def build_action_bool (f : BRecordField) : List (String × KwV) :=
  dictInsert "action"
    (KwV.action
      (if (match f.bdefault with
            | none => true
            | some v => pyTruthy v) && f.bdefault.isSome
        then ArgAction.store_false else ArgAction.store_true))
    (filterDict ["type"] (common_kwargsB f))

theorem lookupKey_update_self {α : Type} (k : String) (v : α) :
    ∀ d : List (String × α), (∃ kv ∈ d, kv.1 = k) →
      lookupKey k (d.map (fun kv => if kv.1 = k then (k, v) else kv)) = some v
  | [], hex => by simp at hex
  | kv :: rest, hex => by
    rw [show ((kv :: rest).map (fun kv => if kv.1 = k then (k, v) else kv)) =
        (if kv.1 = k then (k, v) else kv) ::
          rest.map (fun kv => if kv.1 = k then (k, v) else kv) from rfl]
    by_cases hk : kv.1 = k
    · rw [if_pos hk]
      simp [lookupKey]
    · rw [if_neg hk]
      simp only [lookupKey]
      rw [if_neg (by simpa using hk)]
      obtain ⟨x, hx, hxk⟩ := hex
      rcases List.mem_cons.mp hx with rfl | hx'
      · exact absurd hxk hk
      · exact lookupKey_update_self k v rest ⟨x, hx', hxk⟩

theorem lookupKey_update_other {α : Type} (k k' : String) (hne : ¬k' = k) (v : α) :
    ∀ d : List (String × α),
      lookupKey k (d.map (fun kv => if kv.1 = k' then (k', v) else kv)) = lookupKey k d
  | [] => rfl
  | kv :: rest => by
    rw [show ((kv :: rest).map (fun kv => if kv.1 = k' then (k', v) else kv)) =
        (if kv.1 = k' then (k', v) else kv) ::
          rest.map (fun kv => if kv.1 = k' then (k', v) else kv) from rfl]
    by_cases hk : kv.1 = k'
    · rw [if_pos hk]
      simp only [lookupKey]
      rw [if_neg (by simpa using hne), if_neg (by simp [hk, hne])]
      exact lookupKey_update_other k k' hne v rest
    · rw [if_neg hk]
      simp only [lookupKey]
      by_cases hkk : kv.1 = k
      · rw [if_pos (by simpa using hkk), if_pos (by simpa using hkk)]
      · rw [if_neg (by simpa using hkk), if_neg (by simpa using hkk)]
        exact lookupKey_update_other k k' hne v rest

theorem lookupKey_append_absent {α : Type} (k : String) (v : α) :
    ∀ d : List (String × α), (∀ kv ∈ d, ¬kv.1 = k) →
      lookupKey k (d ++ [(k, v)]) = some v
  | [], _ => by simp [lookupKey]
  | kv :: rest, h => by
    simp only [List.cons_append, lookupKey]
    rw [if_neg (by simpa using h kv (List.mem_cons_self _ _))]
    exact lookupKey_append_absent k v rest (fun x hx => h x (List.mem_cons_of_mem _ hx))

theorem lookupKey_append_other {α : Type} (k k' : String) (hne : ¬k' = k) (v : α) :
    ∀ d : List (String × α), lookupKey k (d ++ [(k', v)]) = lookupKey k d
  | [] => by
    simp only [List.nil_append, lookupKey]
    rw [if_neg (by simpa using hne)]
  | kv :: rest => by
    simp only [List.cons_append, lookupKey]
    by_cases hkk : kv.1 = k
    · rw [if_pos (by simpa using hkk), if_pos (by simpa using hkk)]
    · rw [if_neg (by simpa using hkk), if_neg (by simpa using hkk)]
      exact lookupKey_append_other k k' hne v rest

theorem lookupKey_dictInsert_self {α : Type} (k : String) (v : α)
    (d : List (String × α)) : lookupKey k (dictInsert k v d) = some v := by
  unfold dictInsert
  by_cases hany : d.any (fun kv => kv.1 == k)
  · rw [if_pos hany]
    rw [List.any_eq_true] at hany
    obtain ⟨x, hx, hxk⟩ := hany
    exact lookupKey_update_self k v d ⟨x, hx, by simpa using hxk⟩
  · rw [if_neg hany]
    apply lookupKey_append_absent
    intro kv hkv hc
    exact hany (List.any_eq_true.mpr ⟨kv, hkv, by simpa using hc⟩)

theorem lookupKey_dictInsert_other {α : Type} (k k' : String) (hne : ¬k' = k) (v : α)
    (d : List (String × α)) : lookupKey k (dictInsert k' v d) = lookupKey k d := by
  unfold dictInsert
  by_cases hany : d.any (fun kv => kv.1 == k')
  · rw [if_pos hany]
    exact lookupKey_update_other k k' hne v d
  · rw [if_neg hany]
    exact lookupKey_append_other k k' hne v d

theorem lookupKey_filterDict_removed {α : Type} (k : String) (remove : List String)
    (hk : k ∈ remove) :
    ∀ d : List (String × α), lookupKey k (filterDict remove d) = none
  | [] => rfl
  | kv :: rest => by
    unfold filterDict
    simp only [List.filter_cons]
    by_cases hmem : kv.1 ∈ remove
    · rw [if_neg (by simpa using hmem)]
      exact lookupKey_filterDict_removed k remove hk rest
    · rw [if_pos (by simpa using hmem)]
      simp only [lookupKey]
      have hne : ¬(kv.1 == k) = true := by
        intro h
        exact hmem ((by simpa using h : kv.1 = k) ▸ hk)
      rw [if_neg hne]
      exact lookupKey_filterDict_removed k remove hk rest

/-- Claim C6: for a boolean-typed field (whose declared default, when
present, is an actual boolean), the boolean rule's single flag spec carries
action `store_false` exactly when the field has a default and that default
is true, `store_true` otherwise (in particular when no default is declared),
and no `type` converter entry survives in the kwargs. -/
theorem c6_bool_action (f : BRecordField)
    (hwt : f.bdefault = none ∨ ∃ b, f.bdefault = some (PVal.vbool b)) :
    lookupKey "action" (build_action_bool f) =
      some (KwV.action
        (if f.bdefault = some (PVal.vbool true) then ArgAction.store_false
          else ArgAction.store_true))
    ∧ lookupKey "type" (build_action_bool f) = none := by
  constructor
  · unfold build_action_bool
    rw [lookupKey_dictInsert_self]
    rcases hwt with hd | ⟨b, hd⟩
    · rw [hd]
      simp
    · rw [hd]
      rcases b with _ | _
      · simp [pyTruthy]
      · simp [pyTruthy]
  · unfold build_action_bool
    rw [lookupKey_dictInsert_other _ _ (by decide)]
    exact lookupKey_filterDict_removed "type" ["type"] (by simp) _

/-- Concrete instantiation of the C6 theorem: a default-true field toggles
to false, and no `type` entry appears. -/
theorem c6_bool_action_witness :
    lookupKey "action" (build_action_bool ⟨"flag", some (PVal.vbool true), [("help", "h")]⟩) =
      some (KwV.action ArgAction.store_false)
    ∧ lookupKey "type" (build_action_bool ⟨"flag", some (PVal.vbool true), [("help", "h")]⟩) =
      none := by
  have h := c6_bool_action ⟨"flag", some (PVal.vbool true), [("help", "h")]⟩
    (Or.inr ⟨true, rfl⟩)
  exact ⟨h.1.trans (by decide), h.2⟩

/-! Claim C7: the enum dispatcher's converter
(`shogun/dispatch/concrete/enum_.py`, `enum_type_func`). -/

/-- The parse-time error of the enum converter
(`argparse.ArgumentTypeError("invalid choice: ... (choose from ...)")`). -/
inductive EnumErr : Type where
  | invalidChoice (value : String) (choices : List String)
  deriving DecidableEq, Repr

/-- `enum_type_func`: an enum is its member-name table, each member carrying
its Python truthiness (a plain `Enum` member is always truthy; an `IntEnum`
member with value 0 is falsy).  The code looks the string up in
`__members__` and raises on `if not result:` — i.e. both when the name is
absent and when the member found is falsy. -/
def enum_type_func (members : List (String × Bool)) (value : String) :
    Except EnumErr String :=
  match lookupKey value members with
  | some truthy =>
    if truthy then .ok value
    else .error (.invalidChoice value (members.map Prod.fst))
  | none => .error (.invalidChoice value (members.map Prod.fst))

/-- Claim C7 is right and the code wrong: for an `IntEnum`-like enum
`{off = 0, on = 1}` the converter rejects the valid member name `"off"`
(because `if not result:` is truthiness, not a `None` test), even listing
`"off"` among the valid choices in the very error it raises; a truthy member
and an absent name behave as the claim states. -/
theorem c7_enum_falsy_member_rejected :
    enum_type_func [("off", false), ("on", true)] "off" =
      .error (.invalidChoice "off" ["off", "on"])
    ∧ ("off", false) ∈ [("off", false), ("on", true)]
    ∧ enum_type_func [("off", false), ("on", true)] "on" = .ok "on"
    ∧ enum_type_func [("off", false), ("on", true)] "poutine" =
      .error (.invalidChoice "poutine" ["off", "on"]) := by
  refine ⟨by decide, by decide, by decide, by decide⟩

/-! Claim C9: the serializer's value walk
(`DispatcherGenericContainer.as_serializable` and
`DispatcherDefault.as_serializable`). -/

/-- A runtime Python value reaching the serializer.  `oother` stands for any
non-core, non-container object (serialized via `str()`, its tag standing for
that string). -/
inductive PyObj : Type where
  | ostr (s : String)
  | obool (b : Bool)
  | oint (n : Int)
  | ofloat (lit : String)
  | oseq (items : List PyObj)
  | omap (entries : List (PyObj × PyObj))
  | oother (tag : String)

/-- `CORE_SERIALIZABLE_TYPES = (str, bool, int, float)` membership of a
value's runtime type. -/
def isCore : PyObj → Bool
  | .ostr _ => true
  | .obool _ => true
  | .oint _ => true
  | .ofloat _ => true
  | _ => false

/-- The `str()` coercion fallback (opaque; the tag stands for the printed
form). -/
def pyStr : PyObj → String
  | .ostr s => s
  | .oother tag => tag
  | _ => ""

/-- The serializer failure
(`ValueError("Only core types are allowed to be keys: ...")`). -/
inductive SerErr : Type where
  | unserializableKey
  deriving DecidableEq, Repr

/-- `DispatcherDefault.as_serializable`: core scalars pass through
unchanged, anything else non-container falls back to `str()` (the
`__getstate__` branch concerns record-like objects, which the claim's walk
never feeds to it). -/
def serializeDefault (v : PyObj) : Except SerErr PyObj :=
  if isCore v then .ok v else .ok (.ostr (pyStr v))

mutual

/-- Modelled from the spec: `GlobalRegistry.find_dispatcher` is absent from
the sources; per §4.6 it "looks up the same dispatch rule that would have
matched", so core scalars and plain objects route to `DispatcherDefault`
and sequence/mapping values route to `DispatcherGenericContainer`, whose
`as_serializable` bodies below are embedded from the sources. -/
def serializeVal : PyObj → Except SerErr PyObj
  | .oseq items =>
    match serializeSeq items with
    | .error e => .error e
    | .ok out => .ok (.oseq out)
  | .omap entries =>
    match serializeMap entries with
    | .error e => .error e
    | .ok out => .ok (.omap out)
  | v => serializeDefault v

/-- The `isinstance(value, Sequence)` branch: each element is serialized via
the dispatcher for its runtime type. -/
def serializeSeq : List PyObj → Except SerErr (List PyObj)
  | [] => .ok []
  | v :: rest =>
    match serializeVal v with
    | .error e => .error e
    | .ok w =>
      match serializeSeq rest with
      | .error e => .error e
      | .ok ws => .ok (w :: ws)

/-- The `isinstance(value, Mapping)` branch: for each entry the code tests
`type(v) not in CORE_SERIALIZABLE_TYPES` — the type of the *value* — and
raises otherwise; the key is passed through untouched and the value is
serialized via its runtime type's dispatcher. -/
def serializeMap : List (PyObj × PyObj) → Except SerErr (List (PyObj × PyObj))
  | [] => .ok []
  | (k, v) :: rest =>
    if isCore v then
      match serializeVal v with
      | .error e => .error e
      | .ok w =>
        match serializeMap rest with
        | .error e => .error e
        | .ok ws => .ok ((k, w) :: ws)
    else .error .unserializableKey

end

/-- Claim C9 is right and the code wrong: a mapping whose keys are all core
scalars but whose value is a sequence — the repository's own
`AllTheFields.map_str_seq_str` test value `{"key1": ["value1", "value2"]}` —
is rejected with the unserializable-key error, while a mapping with a
non-scalar *key* and scalar value sails through with the key untouched: the
code checks `type(v)` where its own error message says keys. -/
theorem c9_mapping_checks_values_not_keys :
    serializeVal (.omap [(.ostr "key1", .oseq [.ostr "value1", .ostr "value2"])]) =
      .error .unserializableKey
    ∧ isCore (.ostr "key1") = true
    ∧ serializeVal (.omap [(.oseq [.oint 1], .ostr "v")]) =
      .ok (.omap [(.oseq [.oint 1], .ostr "v")])
    ∧ isCore (.oseq [.oint 1]) = false
    ∧ serializeVal (.oint 7) = .ok (.oint 7)
    ∧ serializeVal (.oseq [.ostr "a", .oint 2]) = .ok (.oseq [.ostr "a", .oint 2]) := by
  refine ⟨?_, rfl, ?_, rfl, ?_, ?_⟩ <;>
    simp [serializeVal, serializeSeq, serializeMap, serializeDefault, isCore, pyStr]

/-! Claims C2, C8, C3: flag building (`_make_parser`, the dispatchers, and
`DispatcherIsRecordClass`/`FieldAction.add_alias_prefix`), the external
argparse primitive, and the parse-then-reconstruct pipeline. -/

/-- What declaring one `FieldAction` on the parser amounts to: a converted
value flag (`type=`, `default=`, `required=`, from
`DispatcherDefault.build_action`) or a boolean toggle
(`action="store_true"/"store_false"`, from `DispatcherBool`). -/
inductive FlagKind : Type where
  | store (conv : String → Option PVal) (fdefault : Option PVal) (required : Bool)
  | toggleTo (b : Bool)

/-- One declared flag: the alias list (canonical `--name` first, then the
metadata aliases, per `FieldAction.__post_init__`) and its kind. -/
structure Flag : Type where
  aliases : List String
  kind : FlagKind

/-- Errors surfaced while building the parser (schema-processing time):
the generic-container `ValueError` for a missing converter, the
`add_alias_prefix` assertion, and argparse's conflicting-option-string
error. -/
inductive BuildErr : Type where
  | missingConverter
  | assertionError
  | conflictingOption
  deriving DecidableEq, Repr

/-- `field_name_to_arg_name` (underscore_to_hyphen on): `"--" + name` with
underscores hyphenated. -/
def canonicalAlias (n : String) : String := "--" ++ hyph n

/-- The flag default of a leaf field (only primitive defaults reach the
parser). -/
def defaultP : Option InstVal → Option PVal
  | some (.prim v) => some v
  | _ => none

/-- The enum rule's converter wired into the flag (`type=enum_type_func`);
success yields the member. -/
def enumConvP (members : List (String × Bool)) (s : String) : Option PVal :=
  match enum_type_func members s with
  | .ok m => some (.venum m)
  | .error _ => none

/-- `FieldAction.add_alias_prefix` on one alias: assert the leading `"--"`,
then rebuild as `"--" + prefix + "-" + alias[2:]`. -/
def addAliasPre (pre : String) (a : String) : Except BuildErr String :=
  match a.data with
  | '-' :: '-' :: rest => .ok ("--" ++ pre ++ "-" ++ String.mk rest)
  | _ => .error .assertionError

/-- `add_alias_prefix` over a spec's alias list (index by index). -/
def prefixAliases (pre : String) : List String → Except BuildErr (List String)
  | [] => .ok []
  | a :: rest =>
    match addAliasPre pre a with
    | .error e => .error e
    | .ok a' =>
      match prefixAliases pre rest with
      | .error e => .error e
      | .ok rest' => .ok (a' :: rest')

/-- Prefixing every alias of every returned spec
(`for s_a in sub_actions: s_a.add_alias_prefix(prefix)`). -/
def prefixFlags (pre : String) : List Flag → Except BuildErr (List Flag)
  | [] => .ok []
  | fl :: rest =>
    match prefixAliases pre fl.aliases with
    | .error e => .error e
    | .ok als =>
      match prefixFlags pre rest with
      | .error e => .error e
      | .ok rest' => .ok (⟨als, fl.kind⟩ :: rest')

mutual

/-- `TypeRegistry.build_actions` in the intended standard configuration
(record dispatcher, then the container rule, then bool/enum, with the
catch-all default last — the constructors of `FTy` are disjoint, so
first-match coincides with this structural dispatch): one flag per leaf
field, recursion with alias prefixing for nested records
(`DispatcherIsRecordClass.build_actions`). -/
def buildActs : SField → Except BuildErr (List Flag)
  | .mk fname fty fal fdf =>
    match fty with
    | .fbool =>
      .ok [⟨canonicalAlias fname :: fal,
        .toggleTo
          (if (match defaultP fdf with
                | none => true
                | some v => pyTruthy v) && (defaultP fdf).isSome
            then false else true)⟩]
    | .fenum members =>
      .ok [⟨canonicalAlias fname :: fal,
        .store (enumConvP members) (defaultP fdf) fdf.isNone⟩]
    | .fbase conv =>
      .ok [⟨canonicalAlias fname :: fal, .store conv (defaultP fdf) fdf.isNone⟩]
    | .fcontainer aparse hasShogun tyconv =>
      if aparse.isNone && !hasShogun then .error .missingConverter
      else .ok [⟨canonicalAlias fname :: fal,
        .store (aparse.getD tyconv) (defaultP fdf) fdf.isNone⟩]
    | .frecord sub => buildRecordActs (hyph fname) sub

/-- `DispatcherIsRecordClass.build_actions`: specs of every nested field via
the registry, every alias prefixed with the hyphenated outer name. -/
def buildRecordActs (pre : String) : List SField → Except BuildErr (List Flag)
  | [] => .ok []
  | f :: rest =>
    match buildActs f with
    | .error e => .error e
    | .ok acts =>
      match prefixFlags pre acts with
      | .error e => .error e
      | .ok acts' =>
        match buildRecordActs pre rest with
        | .error e => .error e
        | .ok more => .ok (acts' ++ more)

end

/-- `_make_parser`'s field loop: every field's specs in declaration order. -/
def buildTopActs : List SField → Except BuildErr (List Flag)
  | [] => .ok []
  | f :: rest =>
    match buildActs f with
    | .error e => .error e
    | .ok acts =>
      match buildTopActs rest with
      | .error e => .error e
      | .ok more => .ok (acts ++ more)

/-- `make_parser`: declare every built spec on a fresh parser; argparse
rejects duplicate option strings at declaration time. -/
def makeParserFlags (fields : List SField) : Except BuildErr (List Flag) :=
  match buildTopActs fields with
  | .error e => .error e
  | .ok flags =>
    if (flags.flatMap (fun fl => fl.aliases)).Nodup then .ok flags
    else .error .conflictingOption

/-- The hyphen-joined flag-name chain of the claim: hyphenated names joined
with `-`. -/
def chainStr : List String → String
  | [] => ""
  | [n] => hyph n
  | n :: rest => hyph n ++ "-" ++ chainStr rest

mutual

/-- The name chains of all leaf fields below one field (outer-to-inner). -/
def fieldChains : SField → List (List String)
  | .mk n ty _ _ =>
    match ty with
    | .frecord sub => (chainsOf sub).map (fun c => n :: c)
    | _ => [[n]]

/-- The leaf name chains of a field list, in declaration order. -/
def chainsOf : List SField → List (List String)
  | [] => []
  | f :: rest => fieldChains f ++ chainsOf rest

end

theorem strMk_data (s : String) : String.mk s.data = s := rfl

theorem data_marker (s : String) : ("--" ++ s).data = '-' :: '-' :: s.data := by
  rw [String.data_append]
  rfl

theorem addAliasPre_marker (pre s : String) :
    addAliasPre pre ("--" ++ s) = .ok ("--" ++ pre ++ "-" ++ s) := by
  unfold addAliasPre
  rw [data_marker]
  rfl

theorem chainStr_cons (n : String) (c : List String) (hc : c ≠ []) :
    chainStr (n :: c) = hyph n ++ "-" ++ chainStr c := by
  cases c with
  | nil => exact absurd rfl hc
  | cons m rest => rfl

theorem fieldChains_ne_nil (f : SField) : ∀ c ∈ fieldChains f, c ≠ [] := by
  obtain ⟨n, ty, al, df⟩ := f
  intro c hc
  cases ty <;> simp only [fieldChains] at hc
  case frecord sub =>
    rw [List.mem_map] at hc
    obtain ⟨c₀, _, rfl⟩ := hc
    simp
  all_goals
    simp only [List.mem_singleton] at hc
    subst hc
    simp

theorem chainsOf_ne_nil : ∀ (l : List SField), ∀ c ∈ chainsOf l, c ≠ []
  | [], c, hc => by simp [chainsOf] at hc
  | f :: rest, c, hc => by
    simp only [chainsOf] at hc
    rcases List.mem_append.mp hc with h | h
    · exact fieldChains_ne_nil f c h
    · exact chainsOf_ne_nil rest c h

theorem addAliasPre_ok (pre a a' : String) (h : addAliasPre pre a = .ok a') :
    ∃ s, a' = "--" ++ pre ++ "-" ++ s := by
  unfold addAliasPre at h
  split at h
  · cases h
    exact ⟨_, rfl⟩
  · cases h

theorem prefixAliases_form (pre : String) :
    ∀ (xs ys : List String), prefixAliases pre xs = .ok ys →
      ∀ y ∈ ys, ∃ s, y = "--" ++ pre ++ "-" ++ s
  | [], ys, h, y, hy => by
    cases h
    simp at hy
  | a :: rest, ys, h, y, hy => by
    simp only [prefixAliases] at h
    rcases ha : addAliasPre pre a with e | a' <;> rw [ha] at h
    · cases h
    · rcases hr : prefixAliases pre rest with e | rest' <;> rw [hr] at h
      · cases h
      · cases h
        rcases List.mem_cons.mp hy with rfl | hmem
        · exact addAliasPre_ok pre a y ha
        · exact prefixAliases_form pre rest rest' hr y hmem

theorem prefixFlags_form (pre : String) :
    ∀ (flags flags' : List Flag), prefixFlags pre flags = .ok flags' →
      ∀ fl ∈ flags', ∀ a ∈ fl.aliases, ∃ s, a = "--" ++ pre ++ "-" ++ s
  | [], flags', h, fl, hfl, a, ha => by
    cases h
    simp at hfl
  | fl0 :: rest, flags', h, fl, hfl, a, ha => by
    simp only [prefixFlags] at h
    rcases h1 : prefixAliases pre fl0.aliases with e | als <;> rw [h1] at h
    · cases h
    · rcases h2 : prefixFlags pre rest with e | rest' <;> rw [h2] at h
      · cases h
      · cases h
        rcases List.mem_cons.mp hfl with rfl | hmem
        · exact prefixAliases_form pre fl0.aliases als h1 a ha
        · exact prefixFlags_form pre rest rest' h2 fl hmem a ha

theorem buildRecordActs_form (pre : String) :
    ∀ (l : List SField) (acts : List Flag), buildRecordActs pre l = .ok acts →
      ∀ fl ∈ acts, ∀ a ∈ fl.aliases, ∃ s, a = "--" ++ pre ++ "-" ++ s
  | [], acts, h, fl, hfl, a, ha => by
    cases h
    simp at hfl
  | f :: rest, acts, h, fl, hfl, a, ha => by
    simp only [buildRecordActs] at h
    split at h
    · cases h
    · rename_i a1 h1
      split at h
      · cases h
      · rename_i a1' h2
        split at h
        · cases h
        · rename_i more h3
          cases h
          rcases List.mem_append.mp hfl with hm | hm
          · exact prefixFlags_form pre a1 a1' h2 fl hm a ha
          · exact buildRecordActs_form pre rest more h3 fl hm a ha

theorem prefixFlags_chainMap (pre : String) :
    ∀ (flags flags' : List Flag) (cs : List (List String)),
      prefixFlags pre flags = .ok flags' →
      flags.map (fun fl => fl.aliases.head?) =
        cs.map (fun c => some ("--" ++ chainStr c)) →
      flags'.map (fun fl => fl.aliases.head?) =
        cs.map (fun c => some ("--" ++ pre ++ "-" ++ chainStr c))
  | [], flags', cs, h, hm => by
    cases h
    rcases cs with _ | ⟨c, cs'⟩
    · rfl
    · simp at hm
  | fl :: rest, flags', cs, h, hm => by
    rcases cs with _ | ⟨c, cs'⟩
    · simp at hm
    · simp only [List.map_cons, List.cons.injEq] at hm
      obtain ⟨hhd, htl⟩ := hm
      simp only [prefixFlags] at h
      rcases ha : prefixAliases pre fl.aliases with e | als <;> rw [ha] at h
      · cases h
      · rcases hr : prefixFlags pre rest with e | rest' <;> rw [hr] at h
        · cases h
        · cases h
          rcases hal : fl.aliases with _ | ⟨a, as⟩
          · rw [hal] at hhd
            simp at hhd
          · rw [hal] at hhd
            simp only [List.head?_cons, Option.some.injEq] at hhd
            subst hhd
            rw [hal] at ha
            simp only [prefixAliases] at ha
            rw [addAliasPre_marker] at ha
            rcases hra : prefixAliases pre as with e | as' <;> rw [hra] at ha
            · cases ha
            · cases ha
              simp only [List.map_cons, List.head?_cons, List.cons.injEq]
              exact ⟨trivial, prefixFlags_chainMap pre rest rest' cs' hr htl⟩

mutual

theorem buildActs_chains : ∀ (f : SField) (acts : List Flag),
    buildActs f = .ok acts →
    acts.map (fun fl => fl.aliases.head?) =
      (fieldChains f).map (fun c => some ("--" ++ chainStr c))
  | .mk n ty al df, acts, hok => by
    cases ty <;> simp only [buildActs, fieldChains] at hok ⊢
    case fbool =>
      cases hok
      rfl
    case fenum members =>
      cases hok
      rfl
    case fbase conv =>
      cases hok
      rfl
    case fcontainer aparse hasShogun tyconv =>
      split at hok
      · cases hok
      · cases hok
        rfl
    case frecord sub =>
      rw [buildRecordActs_chains (hyph n) sub acts hok, List.map_map]
      apply List.map_congr_left
      intro c hc
      have hne := chainsOf_ne_nil sub c hc
      simp only [Function.comp_apply]
      rw [chainStr_cons n c hne]
      simp [String.append_assoc]

theorem buildRecordActs_chains (pre : String) :
    ∀ (l : List SField) (acts : List Flag),
      buildRecordActs pre l = .ok acts →
      acts.map (fun fl => fl.aliases.head?) =
        (chainsOf l).map (fun c => some ("--" ++ pre ++ "-" ++ chainStr c))
  | [], acts, hok => by
    cases hok
    rfl
  | f :: rest, acts, hok => by
    simp only [buildRecordActs] at hok
    simp only [chainsOf]
    split at hok
    · cases hok
    · rename_i a1 h1
      split at hok
      · cases hok
      · rename_i a1' h2
        split at hok
        · cases hok
        · rename_i more h3
          cases hok
          rw [List.map_append, List.map_append]
          congr 1
          · exact prefixFlags_chainMap pre a1 a1' (fieldChains f) h2
              (buildActs_chains f a1 h1)
          · exact buildRecordActs_chains pre rest more h3

end

/-- C2: building the flag specs of a nested-record field recursively builds
the specs of every field of the nested schema and rewrites every alias of
every returned spec by stripping the leading `--` and prepending `--`, the
hyphenated outer field name, and `-`; consequently, at any nesting depth,
every leaf field's flag name (first alias) is `--` followed by the
hyphen-joined chain of hyphenated ancestor names, outer-to-inner, ending in
the leaf name. -/
theorem c2_record_flag_chains (n : String) (sub : List SField)
    (al : List String) (df : Option InstVal) (acts : List Flag)
    (hok : buildActs (.mk n (.frecord sub) al df) = .ok acts) :
    (∀ fl ∈ acts, ∀ a ∈ fl.aliases, ∃ s, a = "--" ++ hyph n ++ "-" ++ s) ∧
    acts.map (fun fl => fl.aliases.head?) =
      (fieldChains (.mk n (.frecord sub) al df)).map
        (fun c => some ("--" ++ chainStr c)) := by
  have hrec : buildRecordActs (hyph n) sub = .ok acts := by
    simpa only [buildActs] using hok
  exact ⟨buildRecordActs_form (hyph n) sub acts hrec,
    buildActs_chains (.mk n (.frecord sub) al df) acts hok⟩

/-- A concrete metadata converter (string passthrough), to instantiate the
theorems on concrete schemas. -/
def convStr (s : String) : Option PVal := some (.vstr s)

/-- A depth-two nested-record field: `room1` holding `room_size` and a
nested `furniture` record holding `name`. -/
def room1Field : SField :=
  .mk "room1" (.frecord
    [.mk "room_size" (.fbase convStr) [] none,
     .mk "furniture" (.frecord [.mk "name" (.fbase convStr) [] none]) [] none])
    [] none

/-- The flags built for `room1Field`. -/
def houseActs : List Flag :=
  [⟨["--room1-room-size"], .store convStr none true⟩,
   ⟨["--room1-furniture-name"], .store convStr none true⟩]

/-- Witness for C2: on the concrete `room1` schema the built flags are
exactly `--room1-room-size` and `--room1-furniture-name`, the hyphen-joined
ancestor chains. -/
theorem c2_record_flag_chains_witness :
    buildActs room1Field = .ok houseActs ∧
    ((∀ fl ∈ houseActs, ∀ a ∈ fl.aliases,
        ∃ s, a = "--" ++ hyph "room1" ++ "-" ++ s) ∧
      houseActs.map (fun fl => fl.aliases.head?) =
        (fieldChains room1Field).map (fun c => some ("--" ++ chainStr c))) := by
  have hok : buildActs room1Field = .ok houseActs := by
    simp only [room1Field, houseActs, buildActs, buildRecordActs, prefixFlags,
      prefixAliases, canonicalAlias, String.append_assoc, addAliasPre_marker,
      defaultP, Option.isNone_none]
    have e1 : "--" ++ (hyph "room1" ++ ("-" ++ hyph "room_size")) =
        "--room1-room-size" := by decide
    have e2 : "--" ++ (hyph "room1" ++ ("-" ++ (hyph "furniture" ++
        ("-" ++ hyph "name")))) = "--room1-furniture-name" := by decide
    rw [e1, e2]
    rfl
  exact ⟨hok, c2_record_flag_chains "room1" _ [] none houseActs hok⟩

/-- C8 counterexample: a generic-container field with no metadata converter
whose type implements the `ShogunArgparseParse` protocol builds fine — the
claim's "fails whenever the metadata converter is absent" is too strong. -/
theorem c8_counterexample :
    buildActs (.mk "items" (.fcontainer none true convStr) [] none) =
      .ok [⟨[canonicalAlias "items"], .store convStr none true⟩] := by
  simp [buildActs, defaultP]

/-- C8 (amended): building a generic-container field's specs yields
`missingConverter` exactly when the field has neither a metadata converter
nor a `__shogun_argparse_parse__`-implementing type; with a metadata
converter present it builds exactly one spec whose type converter is that
converter; and the failure surfaces from parser construction itself
(`makeParserFlags`), which never looks at argv. -/
theorem c8_container_converter (n : String)
    (aparse : Option (String → Option PVal)) (hs : Bool)
    (tyconv : String → Option PVal) (al : List String) (df : Option InstVal) :
    (buildActs (.mk n (.fcontainer aparse hs tyconv) al df) =
        .error .missingConverter ↔ aparse = none ∧ hs = false) ∧
    (∀ c, aparse = some c →
      buildActs (.mk n (.fcontainer aparse hs tyconv) al df) =
        .ok [⟨canonicalAlias n :: al, .store c (defaultP df) df.isNone⟩]) ∧
    (aparse = none → hs = false →
      makeParserFlags [.mk n (.fcontainer aparse hs tyconv) al df] =
        .error .missingConverter) := by
  refine ⟨?_, ?_, ?_⟩
  · cases aparse <;> cases hs <;> simp [buildActs]
  · intro c hc
    subst hc
    simp [buildActs]
  · intro h1 h2
    subst h1
    subst h2
    simp [makeParserFlags, buildTopActs, buildActs]

/-! Claim C3: the parse-then-reconstruct round trip (`parse` in
`shogun/argparse_/parse.py`: `build_record_instance_from_parsed_args`
applied to `vars(make_parser(cls).parse_args(args))`). -/

/-- The underscore-joined key chain a nested flag's destination gets
(`--a-b-c` has `dest` `a_b_c`). -/
def keyStr : List String → String
  | [] => ""
  | [n] => n
  | n :: rest => n ++ "_" ++ keyStr rest

mutual

/-- The parsed-namespace keys a field owns: its own name for a leaf, its
name `_`-prefixed onto every nested key for a record field. -/
def fieldKeys : SField → List String
  | .mk n ty _ _ =>
    match ty with
    | .frecord sub => (recKeys sub).map (fun k => n ++ "_" ++ k)
    | _ => [n]

/-- All namespace keys of a field list, in declaration order. -/
def recKeys : List SField → List String
  | [] => []
  | f :: rest => fieldKeys f ++ recKeys rest

end

/-- The sub-mapping belonging to nested field `n`: the entries whose key
extends `n_`, with `len(n) + 1` leading code points stripped. -/
def subArgsFor (n : String) (args : Args) : Args :=
  (args.filter (fun kv => startswith (n ++ "_") kv.1)).map
    (fun kv => (strDropn kv.1 (n.length + 1), kv.2))

mutual

/-- The instance entry the spec promises for one field: a leaf takes the
namespace value stored under its own name, a record field takes the
instance reconstructed from its stripped sub-mapping. -/
def expField (args : Args) : SField → String × InstVal
  | .mk n ty _ _ =>
    match ty with
    | .frecord sub => (n, .inst (expFields (subArgsFor n args) sub))
    | _ => (n, .prim ((lookupKey n args).getD .vnone))

/-- The instance the spec promises for a field list, in declaration
order. -/
def expFields (args : Args) : List SField → List (String × InstVal)
  | [] => []
  | f :: rest => expField args f :: expFields args rest

end

/-- A usable field name: nonempty (a Python identifier) and hyphen-free, so
hyphenation round-trips. -/
def goodName (s : String) : Bool := !(s == "") && !(s.data.contains '-')

mutual

/-- The schema conditions under which the round trip holds, including the
separation proviso: no sibling's name is a string prefix of another
sibling's name or of any namespace key another sibling owns. -/
def wfFields : List SField → Bool
  | [] => true
  | f :: rest =>
    wfField f &&
    rest.all (fun g =>
      (fieldKeys g).all (fun k => !(startswith (SField.name f) k)) &&
      (fieldKeys f).all (fun k => !(startswith (SField.name g) k))) &&
    wfFields rest

/-- Per-field conditions: a good name, and a record field has a nonempty,
itself wellformed sub-schema. -/
def wfField : SField → Bool
  | .mk n ty _ _ =>
    goodName n &&
    match ty with
    | .frecord sub => !(sub.isEmpty) && wfFields sub
    | _ => true

end

/-- Modelled from the spec: the destination name argparse derives for a
declared flag — the first option string with the leading `--` stripped and
hyphens turned to underscores (the doctests of `parse.py` pin this:
`--first-arg` populates `first_arg`). -/
def destOf (fl : Flag) : String :=
  match fl.aliases with
  | [] => ""
  | a :: _ => underscore (strDropn a 2)

/-- Modelled from the spec: the namespace value a flag starts with before
argv is read — a value flag starts at its declared default (`None` when it
has none), a toggle starts at the negation of the value it stores. -/
def initVal : FlagKind → PVal
  | .store _ fdefault _ => fdefault.getD .vnone
  | .toggleTo b => .vbool (!b)

/-- Modelled from the spec: the failure conditions of the external parsing
primitive (unknown flag, flag missing its value, converter failure, missing
required flag), surfaced through its error-reporting path. -/
inductive PErr : Type where
  | unrecognizedArgument
  | expectedOneArgument
  | invalidValue
  | missingRequired
  deriving DecidableEq, Repr

/-- Python dict write `d[k] = v` on a key already present (insertion order
keeps the key's position). -/
def updateKey {β : Type} (k : String) (v : β) :
    List (String × β) → List (String × β)
  | [] => []
  | (k', v') :: rest =>
    if k' == k then (k, v) :: rest else (k', v') :: updateKey k v rest

/-- Modelled from the spec: the parsing primitive's token loop — look the
token up among all declared aliases, then either store the toggle value or
consume and convert the next token; each hit records the destination as
seen. -/
def parseLoop (flags : List Flag) :
    List String → List (String × PVal) → List String →
    Except PErr (List (String × PVal) × List String)
  | [], ns, seen => .ok (ns, seen)
  | t :: rest, ns, seen =>
    match flags.find? (fun fl => fl.aliases.contains t) with
    | none => .error .unrecognizedArgument
    | some fl =>
      match fl.kind with
      | .toggleTo b =>
        parseLoop flags rest (updateKey (destOf fl) (.vbool b) ns)
          (destOf fl :: seen)
      | .store conv _ _ =>
        match rest with
        | [] => .error .expectedOneArgument
        | v :: rest2 =>
          match conv v with
          | none => .error .invalidValue
          | some pv =>
            parseLoop flags rest2 (updateKey (destOf fl) pv ns)
              (destOf fl :: seen)

/-- The chronological destination writes argv induces (the declarative
rendering of "the value implied by argv"). -/
def updatesOf (flags : List Flag) : List String → List (String × PVal)
  | [] => []
  | t :: rest =>
    match flags.find? (fun fl => fl.aliases.contains t) with
    | none => []
    | some fl =>
      match fl.kind with
      | .toggleTo b => (destOf fl, .vbool b) :: updatesOf flags rest
      | .store conv _ _ =>
        match rest with
        | [] => []
        | v :: rest2 =>
          match conv v with
          | none => []
          | some pv => (destOf fl, pv) :: updatesOf flags rest2

/-- Modelled from the spec: every required value flag must have been seen. -/
def requiredOk (flags : List Flag) (seen : List String) : Bool :=
  flags.all fun fl =>
    match fl.kind with
    | .store _ _ required => !required || seen.contains (destOf fl)
    | .toggleTo _ => true

/-- Modelled from the spec: the parsing primitive — run the token loop on
the initial namespace (every flag's destination at its initial value), then
enforce required flags; on success the namespace holds one value per
declared flag. -/
def parseArgsModel (flags : List Flag) (argv : List String) :
    Except PErr (List (String × PVal)) :=
  match parseLoop flags argv
      (flags.map fun fl => (destOf fl, initVal fl.kind)) [] with
  | .error e => .error e
  | .ok (ns, seen) =>
    if requiredOk flags seen then .ok ns else .error .missingRequired

/-- The three stages an end-to-end `parse` call can fail in. -/
inductive PipeErr : Type where
  | buildErr (e : BuildErr)
  | parseErr (e : PErr)
  | reconErr (e : RErr)
  deriving DecidableEq, Repr

/-- `parse` end to end: build the parser from the schema, run the parsing
primitive on argv, then unflatten the namespace into an instance. -/
def parseFull (fields : List SField) (argv : List String) :
    Except PipeErr (List (String × InstVal)) :=
  match makeParserFlags fields with
  | .error e => .error (.buildErr e)
  | .ok flags =>
    match parseArgsModel flags argv with
    | .error e => .error (.parseErr e)
    | .ok ns =>
      match buildRecordInstance fields ns with
      | .error e => .error (.reconErr e)
      | .ok inst => .ok inst

/-- Witness for C8: with a comma-splitting-style converter present the one
spec carries it; without either converter source the parser build itself
errors. -/
theorem c8_container_converter_witness :
    (buildActs (.mk "items" (.fcontainer (some convStr) false convStr) [] none) =
      .ok [⟨canonicalAlias "items" :: [],
        .store convStr (defaultP none) (none : Option InstVal).isNone⟩]) ∧
    (makeParserFlags [.mk "items" (.fcontainer none false convStr) [] none] =
      .error .missingConverter) :=
  ⟨(c8_container_converter "items" (some convStr) false convStr [] none).2.1
      convStr rfl,
    (c8_container_converter "items" none false convStr [] none).2.2 rfl rfl⟩

theorem strData_inj {s t : String} (h : s.data = t.data) : s = t := by
  cases s
  cases t
  exact congrArg String.mk h

theorem startswith_refl (s : String) : startswith s s = true := by
  rw [startswith, List.isPrefixOf_iff_prefix]

theorem startswith_append (s x : String) : startswith s (s ++ x) = true := by
  rw [startswith, String.data_append, List.isPrefixOf_iff_prefix]
  exact List.prefix_append _ _

theorem startswith_exists {p s : String} (h : startswith p s = true) :
    ∃ t, s = p ++ t := by
  rw [startswith, List.isPrefixOf_iff_prefix] at h
  obtain ⟨td, htd⟩ := h
  refine ⟨String.mk td, strData_inj ?_⟩
  rw [String.data_append]
  exact htd.symm

theorem startswith_trans {a b c : String} (h1 : startswith a b = true)
    (h2 : startswith b c = true) : startswith a c = true := by
  rw [startswith, List.isPrefixOf_iff_prefix] at h1 h2 ⊢
  exact h1.trans h2

theorem lexLt_append : ∀ (a b x y : List Char),
    lexLt a b = true → a.isPrefixOf b = false → lexLt (a ++ x) (b ++ y) = true
  | [], b, x, y, _, h2 => by
    simp [List.isPrefixOf] at h2
  | a :: as, [], x, y, h1, _ => by
    simp [lexLt] at h1
  | a :: as, b :: bs, x, y, h1, h2 => by
    simp only [lexLt, List.cons_append] at h1 ⊢
    simp only [List.isPrefixOf] at h2
    rcases lt_trichotomy a b with hab | hab | hab
    · simp [hab]
    · subst hab
      simp only [lt_irrefl, if_false] at h1 ⊢
      simp only [beq_self_eq_true, Bool.true_and] at h2
      exact lexLt_append as bs x y h1 h2
    · simp [hab, not_lt_of_lt hab] at h1

theorem underscore_key_ne (n k' : String) : (n ++ "_" ++ k') ≠ n := by
  intro h
  have hd := congrArg String.data h
  rw [String.data_append, String.data_append] at hd
  have hlen := congrArg List.length hd
  rw [List.length_append, List.length_append] at hlen
  have h1 : ("_" : String).data.length = 1 := rfl
  omega

theorem strDropn_append (p k' : String) : strDropn (p ++ k') p.length = k' := by
  apply strData_inj
  show ((p ++ k').data.drop p.length) = k'.data
  rw [String.data_append]
  exact List.drop_left p.data k'.data

theorem strDropn_key (n k' : String) :
    strDropn (n ++ "_" ++ k') (n.length + 1) = k' := by
  have h1 : (n ++ "_").length = n.length + 1 := by
    show (n ++ "_").data.length = n.data.length + 1
    rw [String.data_append, List.length_append]
    rfl
  rw [← h1]
  exact strDropn_append (n ++ "_") k'

theorem strAppend_cancel {p a b : String} (h : p ++ a = p ++ b) : a = b := by
  have hd := congrArg String.data h
  rw [String.data_append, String.data_append] at hd
  exact strData_inj (List.append_cancel_left hd)

theorem wfFields_head {f : SField} {rest : List SField}
    (h : wfFields (f :: rest) = true) : wfField f = true := by
  simp only [wfFields, Bool.and_eq_true] at h
  exact h.1.1

theorem wfFields_tail {f : SField} {rest : List SField}
    (h : wfFields (f :: rest) = true) : wfFields rest = true := by
  simp only [wfFields, Bool.and_eq_true] at h
  exact h.2

theorem wfFields_sep {f : SField} {rest : List SField}
    (h : wfFields (f :: rest) = true) :
    ∀ g ∈ rest, (∀ k ∈ fieldKeys g, startswith f.name k = false) ∧
      (∀ k ∈ fieldKeys f, startswith g.name k = false) := by
  simp only [wfFields, Bool.and_eq_true, List.all_eq_true] at h
  intro g hg
  have hfg := h.1.2 g hg
  constructor
  · intro k hk
    simpa using hfg.1 k hk
  · intro k hk
    simpa using hfg.2 k hk

theorem wfField_record {n : String} {sub : List SField} {al : List String}
    {df : Option InstVal} (h : wfField (.mk n (.frecord sub) al df) = true) :
    goodName n = true ∧ sub ≠ [] ∧ wfFields sub = true := by
  simp only [wfField, Bool.and_eq_true] at h
  refine ⟨h.1, ?_, h.2.2⟩
  have h2 := h.2.1
  simpa using h2

theorem wfField_name : ∀ {f : SField}, wfField f = true → goodName f.name = true := by
  intro f h
  obtain ⟨n, ty, al, df⟩ := f
  cases ty <;>
    simp only [wfField, SField.name, Bool.and_eq_true] at h ⊢ <;>
    exact h.1

theorem startswith_fieldKeys :
    ∀ (f : SField), ∀ k ∈ fieldKeys f, startswith f.name k = true
  | .mk n ty al df, k, hk => by
    cases ty <;> simp only [fieldKeys, SField.name] at hk ⊢
    case frecord sub =>
      rw [List.mem_map] at hk
      obtain ⟨k', _, rfl⟩ := hk
      rw [String.append_assoc]
      exact startswith_append n _
    all_goals
      rw [List.mem_singleton] at hk
      subst hk
      exact startswith_refl _

mutual

theorem fieldKeys_ne_nil : ∀ (f : SField), wfField f = true → fieldKeys f ≠ []
  | .mk n ty al df, hw => by
    cases ty <;> simp only [fieldKeys]
    case frecord sub =>
      obtain ⟨_, hne, hsub⟩ := wfField_record hw
      simp only [ne_eq, List.map_eq_nil_iff]
      exact recKeys_ne_nil sub hsub hne
    all_goals simp

theorem recKeys_ne_nil :
    ∀ (l : List SField), wfFields l = true → l ≠ [] → recKeys l ≠ []
  | [], _, hne => absurd rfl hne
  | f :: rest, hw, _ => by
    simp only [recKeys, ne_eq, List.append_eq_nil]
    rintro ⟨h1, _⟩
    exact fieldKeys_ne_nil f (wfFields_head hw) h1

end

theorem mem_recKeys :
    ∀ (l : List SField) (k : String), k ∈ recKeys l ↔ ∃ g ∈ l, k ∈ fieldKeys g
  | [], k => by simp [recKeys]
  | f :: rest, k => by
    simp only [recKeys, List.mem_append, mem_recKeys rest k, List.mem_cons]
    constructor
    · rintro (h | ⟨g, hg, hk⟩)
      · exact ⟨f, Or.inl rfl, h⟩
      · exact ⟨g, Or.inr hg, hk⟩
    · rintro ⟨g, rfl | hg, hk⟩
      · exact Or.inl hk
      · exact Or.inr ⟨g, hg, hk⟩

theorem wfFields_all_wf :
    ∀ (l : List SField), wfFields l = true → ∀ f ∈ l, wfField f = true
  | f :: rest, hw, g, hg => by
    rcases List.mem_cons.mp hg with rfl | hmem
    · exact wfFields_head hw
    · exact wfFields_all_wf rest (wfFields_tail hw) g hmem
  | [], _, g, hg => by simp at hg

mutual

theorem fieldKeys_nodup : ∀ (f : SField), wfField f = true → (fieldKeys f).Nodup
  | .mk n ty al df, hw => by
    cases ty <;> simp only [fieldKeys]
    case frecord sub =>
      obtain ⟨_, _, hsub⟩ := wfField_record hw
      refine (recKeys_nodup sub hsub).map_on ?_
      intro a _ b _ hab
      exact strAppend_cancel hab
    all_goals simp

theorem recKeys_nodup : ∀ (l : List SField), wfFields l = true → (recKeys l).Nodup
  | [], _ => List.nodup_nil
  | f :: rest, hw => by
    simp only [recKeys]
    rw [List.nodup_append]
    refine ⟨fieldKeys_nodup f (wfFields_head hw),
      recKeys_nodup rest (wfFields_tail hw), ?_⟩
    intro k hk1 hk2
    rw [mem_recKeys] at hk2
    obtain ⟨g, hg, hkg⟩ := hk2
    have hsep := (wfFields_sep hw g hg).2 k hk1
    have hsw := startswith_fieldKeys g k hkg
    rw [hsw] at hsep
    simp at hsep

end

theorem wfFields_names_nodup :
    ∀ (l : List SField), wfFields l = true → (l.map SField.name).Nodup
  | [], _ => by simp
  | f :: rest, hw => by
    simp only [List.map_cons, List.nodup_cons]
    refine ⟨?_, wfFields_names_nodup rest (wfFields_tail hw)⟩
    rw [List.mem_map]
    rintro ⟨g, hg, hname⟩
    obtain ⟨k, hk⟩ := List.exists_mem_of_ne_nil _
      (fieldKeys_ne_nil g (wfFields_all_wf _ (wfFields_tail hw) g hg))
    have h1 := (wfFields_sep hw g hg).1 k hk
    have h2 := startswith_fieldKeys g k hk
    rw [hname] at h2
    rw [h2] at h1
    simp at h1

/-- The symmetric sibling-separation relation the wellformedness predicate
induces, kept through sorting. -/
def Rp (f g : SField) : Prop :=
  (∀ k ∈ fieldKeys g, startswith f.name k = false) ∧
  (∀ k ∈ fieldKeys f, startswith g.name k = false)

theorem Rp_symm : ∀ {f g : SField}, Rp f g → Rp g f :=
  fun h => ⟨h.2, h.1⟩

theorem wfFields_pairwise : ∀ (l : List SField), wfFields l = true → l.Pairwise Rp
  | [], _ => List.Pairwise.nil
  | f :: rest, hw => by
    rw [List.pairwise_cons]
    exact ⟨fun g hg => wfFields_sep hw g hg,
      wfFields_pairwise rest (wfFields_tail hw)⟩

theorem front_block {β : Type} (P : String × β → Bool) :
    ∀ (l : List (String × β)),
      List.Pairwise (fun a b => keyLe a b = true) l →
      (∀ kv ∈ l, ∀ kv2 ∈ l, P kv = true → P kv2 = false →
        lexLt kv.1.data kv2.1.data = true) →
      l.takeWhile P = l.filter P ∧
        l.dropWhile P = l.filter (fun kv => !(P kv))
  | [], _, _ => ⟨rfl, rfl⟩
  | kv :: t, hp, hord => by
    rw [List.pairwise_cons] at hp
    obtain ⟨hall, htp⟩ := hp
    have hordt : ∀ a ∈ t, ∀ b ∈ t, P a = true → P b = false →
        lexLt a.1.data b.1.data = true :=
      fun a ha b hb h1 h2 =>
        hord a (List.mem_cons_of_mem _ ha) b (List.mem_cons_of_mem _ hb) h1 h2
    have ih := front_block P t htp hordt
    cases hP : P kv with
    | true =>
      constructor
      · simp [List.takeWhile_cons, List.filter_cons, hP, ih.1]
      · simp [List.dropWhile_cons, List.filter_cons, hP, ih.2]
    | false =>
      have htF : ∀ b ∈ t, P b = false := by
        intro b hb
        cases hPb : P b with
        | false => rfl
        | true =>
          have hlt := hord b (List.mem_cons_of_mem _ hb) kv
            (List.mem_cons_self _ _) hPb hP
          have hle := hall b hb
          rw [keyLe, Bool.not_eq_true'] at hle
          rw [hlt] at hle
          simp at hle
      have hft : t.filter P = [] := by
        rw [List.filter_eq_nil_iff]
        intro b hb
        simp [htF b hb]
      have hft2 : t.filter (fun kv2 => !(P kv2)) = t := by
        rw [List.filter_eq_self]
        intro b hb
        simp [htF b hb]
      constructor
      · simp [List.takeWhile_cons, List.filter_cons, hP, hft]
      · simp [List.dropWhile_cons, List.filter_cons, hP, hft2]

theorem lookupKey_append {β : Type} (k : String) :
    ∀ (A B : List (String × β)),
      lookupKey k (A ++ B) = (lookupKey k A).or (lookupKey k B)
  | [], B => by simp [lookupKey]
  | (k2, v) :: A, B => by
    simp only [List.cons_append, lookupKey]
    by_cases h : k2 = k
    · simp [h]
    · simp [h, lookupKey_append k A B]

theorem lookupKey_eq_none_iff {β : Type} (k : String) :
    ∀ (l : List (String × β)), lookupKey k l = none ↔ ∀ kv ∈ l, kv.1 ≠ k
  | [] => by simp [lookupKey]
  | (k2, v) :: rest => by
    simp only [lookupKey, List.forall_mem_cons]
    by_cases h : k2 = k
    · subst h
      simp
    · simp [h, lookupKey_eq_none_iff k rest]

theorem lookupKey_eq_some_of_mem {β : Type} {k : String} {v : β} :
    ∀ {l : List (String × β)}, (l.map Prod.fst).Nodup → (k, v) ∈ l →
      lookupKey k l = some v
  | [], _, hm => by simp at hm
  | (k2, v2) :: rest, hnd, hm => by
    simp only [List.map_cons, List.nodup_cons] at hnd
    rcases List.mem_cons.mp hm with heq | hmem
    · cases heq
      simp [lookupKey]
    · have hk : k2 ≠ k := by
        intro h
        subst h
        exact hnd.1 (List.mem_map.mpr ⟨(k2, v), hmem, rfl⟩)
      simp only [lookupKey]
      simp [hk]
      exact lookupKey_eq_some_of_mem hnd.2 hmem

theorem lookupKey_perm {β : Type} {l l2 : List (String × β)} (k : String)
    (hperm : l.Perm l2) (hnd : (l.map Prod.fst).Nodup) :
    lookupKey k l = lookupKey k l2 := by
  have hnd2 : (l2.map Prod.fst).Nodup := ((hperm.map Prod.fst).nodup_iff).mp hnd
  rcases h : lookupKey k l with _ | v
  · rcases h2 : lookupKey k l2 with _ | v2
    · rfl
    · exfalso
      have hm := lookupKey_mem k l2 v2 h2
      exact (lookupKey_eq_none_iff k l).mp h (k, v2) (hperm.mem_iff.mpr hm) rfl
  · have hm := lookupKey_mem k l v h
    exact (lookupKey_eq_some_of_mem hnd2 (hperm.mem_iff.mp hm)).symm

theorem eraseKey_map_fst {β : Type} (k : String) :
    ∀ (l : List (String × β)),
      (eraseKey k l).map Prod.fst = (l.map Prod.fst).erase k
  | [] => rfl
  | (k2, v) :: rest => by
    simp only [eraseKey, List.map_cons]
    by_cases h : k2 = k
    · subst h
      simp
    · rw [List.erase_cons_tail]
      · simp [h, eraseKey_map_fst k rest]
      · simpa using h

theorem updateKey_map_fst {β : Type} (k : String) (v : β) :
    ∀ (l : List (String × β)), (updateKey k v l).map Prod.fst = l.map Prod.fst
  | [] => rfl
  | (k2, v2) :: rest => by
    simp only [updateKey]
    by_cases h : k2 = k
    · subst h
      simp
    · simp [h, updateKey_map_fst k v rest]

theorem lookupKey_updateKey_self {β : Type} (k : String) (v : β) :
    ∀ (l : List (String × β)), k ∈ l.map Prod.fst →
      lookupKey k (updateKey k v l) = some v
  | [], hm => by simp at hm
  | (k2, v2) :: rest, hm => by
    simp only [updateKey]
    by_cases h : k2 = k
    · subst h
      simp [lookupKey]
    · have hmem : k ∈ rest.map Prod.fst := by
        simp only [List.map_cons, List.mem_cons] at hm
        rcases hm with h1 | h1
        · exact absurd h1.symm h
        · exact h1
      simp [h, lookupKey, lookupKey_updateKey_self k v rest hmem]

theorem lookupKey_updateKey_other {β : Type} (k k2 : String) (v : β)
    (hne : k2 ≠ k) :
    ∀ (l : List (String × β)),
      lookupKey k2 (updateKey k v l) = lookupKey k2 l
  | [] => rfl
  | (k3, v3) :: rest => by
    simp only [updateKey]
    by_cases h : k3 = k
    · subst h
      simp [lookupKey, Ne.symm hne]
    · by_cases h2 : k3 = k2
      · subst h2
        simp [lookupKey, h]
      · simp [lookupKey, h, h2, lookupKey_updateKey_other k k2 v hne rest]

theorem map_fst_filter {β : Type} (P : String → Bool) :
    ∀ (l : List (String × β)),
      (l.filter (fun kv => P kv.1)).map Prod.fst = (l.map Prod.fst).filter P
  | [] => rfl
  | kv :: rest => by
    simp only [List.filter_cons, List.map_cons]
    by_cases h : P kv.1 = true
    · simp [h, map_fst_filter P rest]
    · rw [Bool.not_eq_true] at h
      simp [h, map_fst_filter P rest]

theorem lookupKey_subArgsFor (n : String) :
    ∀ (a : Args) (k2 : String),
      lookupKey k2 (subArgsFor n a) = lookupKey (n ++ "_" ++ k2) a
  | [], k2 => rfl
  | kv :: rest, k2 => by
    simp only [subArgsFor, List.filter_cons] at *
    by_cases hP : startswith (n ++ "_") kv.1 = true
    · obtain ⟨t, ht⟩ := startswith_exists hP
      have hstrip : strDropn kv.1 (n.length + 1) = t := by
        rw [ht]
        exact strDropn_key n t
      simp only [hP, if_true, List.map_cons, lookupKey, hstrip]
      by_cases he : t = k2
      · subst he
        simp [ht]
      · have h2 : kv.1 ≠ n ++ "_" ++ k2 := by
          rw [ht]
          intro hc
          exact he (strAppend_cancel hc)
        simpa [he, h2] using lookupKey_subArgsFor n rest k2
    · have h2 : kv.1 ≠ n ++ "_" ++ k2 := by
        intro hc
        apply hP
        rw [hc]
        exact startswith_append (n ++ "_") k2
      rw [Bool.not_eq_true] at hP
      simpa [hP, lookupKey, h2] using lookupKey_subArgsFor n rest k2

theorem subArgsFor_nodup (n : String) (a : Args)
    (hnd : (a.map Prod.fst).Nodup) : ((subArgsFor n a).map Prod.fst).Nodup := by
  have h1 : (subArgsFor n a).map Prod.fst =
      ((a.map Prod.fst).filter (fun k => startswith (n ++ "_") k)).map
        (fun k => strDropn k (n.length + 1)) := by
    unfold subArgsFor
    rw [List.map_map, ← map_fst_filter, List.map_map]
    rfl
  rw [h1]
  refine (hnd.filter _).map_on ?_
  intro k1 h1m k2 h2m heq
  rw [List.mem_filter] at h1m h2m
  obtain ⟨t1, rfl⟩ := startswith_exists h1m.2
  obtain ⟨t2, rfl⟩ := startswith_exists h2m.2
  rw [strDropn_key n t1, strDropn_key n t2] at heq
  rw [heq]

theorem lookupKey_eraseKey_other {β : Type} (k k2 : String) (hne : k ≠ k2) :
    ∀ (l : List (String × β)), lookupKey k (eraseKey k2 l) = lookupKey k l
  | [] => rfl
  | (k3, v) :: rest => by
    simp only [eraseKey]
    by_cases h : k3 = k2
    · subst h
      simp [lookupKey, Ne.symm hne]
    · by_cases h3 : k3 = k
      · subst h3
        simp [lookupKey, h]
      · simp [lookupKey, h, h3, lookupKey_eraseKey_other k k2 hne rest]

theorem lexLt_total_eq : ∀ (a b : List Char),
    lexLt a b = false → lexLt b a = false → a = b
  | [], [], _, _ => rfl
  | [], _ :: _, h1, _ => by simp [lexLt] at h1
  | _ :: _, [], _, h2 => by simp [lexLt] at h2
  | a :: as, b :: bs, h1, h2 => by
    simp only [lexLt] at h1 h2
    rcases lt_trichotomy a b with hab | hab | hab
    · simp [hab] at h1
    · subst hab
      simp only [lt_irrefl, if_false] at h1 h2
      rw [lexLt_total_eq as bs h1 h2]
    · simp [hab, not_lt_of_lt hab] at h2

theorem keys_order {f g : SField} (hle : fieldLe f g = true)
    (hrp : Rp f g) :
    ∀ k1 ∈ fieldKeys f, ∀ k2 ∈ fieldKeys g, lexLt k1.data k2.data = true := by
  intro k1 hk1 k2 hk2
  obtain ⟨x, hx⟩ := startswith_exists (startswith_fieldKeys f k1 hk1)
  obtain ⟨y, hy⟩ := startswith_exists (startswith_fieldKeys g k2 hk2)
  have hnp1 : f.name.data.isPrefixOf g.name.data = false := by
    cases hc : f.name.data.isPrefixOf g.name.data with
    | false => rfl
    | true =>
      have hsw : startswith f.name k2 = true := by
        rw [hy]
        exact startswith_trans (show startswith f.name g.name = true from hc)
          (startswith_append g.name y)
      rw [hrp.1 k2 hk2] at hsw
      simp at hsw
  have hnames : f.name ≠ g.name := by
    intro h
    have hsw : startswith f.name k2 = true := by
      rw [hy, h]
      exact startswith_append g.name y
    rw [hrp.1 k2 hk2] at hsw
    simp at hsw
  have hlt : lexLt f.name.data g.name.data = true := by
    cases hc : lexLt f.name.data g.name.data with
    | true => rfl
    | false =>
      rw [fieldLe, Bool.not_eq_true'] at hle
      exact absurd (strData_inj (lexLt_total_eq _ _ hc hle)) hnames
  rw [hx, hy, String.data_append, String.data_append]
  exact lexLt_append _ _ _ _ hlt hnp1

theorem sortFields_sorted (fields : List SField) :
    List.Sorted (fun a b => fieldLe a b = true) (sortFields fields) :=
  List.sorted_insertionSort _ fields

theorem recKeys_eq_flatMap : ∀ (l : List SField), recKeys l = l.flatMap fieldKeys
  | [] => rfl
  | f :: rest => by
    simp [recKeys, List.flatMap_cons, recKeys_eq_flatMap rest]

theorem recKeys_perm {l l2 : List SField} (h : l.Perm l2) :
    (recKeys l).Perm (recKeys l2) := by
  rw [recKeys_eq_flatMap, recKeys_eq_flatMap]
  exact List.Perm.flatMap_right fieldKeys h

theorem expField_fst (a : Args) : ∀ (f : SField), (expField a f).1 = f.name
  | .mk n ty al df => by
    cases ty <;> simp [expField, SField.name]

mutual

theorem expField_congr : ∀ (f : SField) (a1 a2 : Args),
    (∀ k ∈ fieldKeys f, lookupKey k a1 = lookupKey k a2) →
    expField a1 f = expField a2 f
  | .mk n ty al df, a1, a2, h => by
    cases ty <;> simp only [expField]
    case frecord sub =>
      have hsub : ∀ k ∈ recKeys sub,
          lookupKey k (subArgsFor n a1) = lookupKey k (subArgsFor n a2) := by
        intro k hk
        rw [lookupKey_subArgsFor, lookupKey_subArgsFor]
        exact h (n ++ "_" ++ k) (by
          simp only [fieldKeys, List.mem_map]
          exact ⟨k, hk, rfl⟩)
      rw [expFields_congr sub _ _ hsub]
    all_goals
      rw [h n (by simp [fieldKeys])]

theorem expFields_congr : ∀ (l : List SField) (a1 a2 : Args),
    (∀ k ∈ recKeys l, lookupKey k a1 = lookupKey k a2) →
    expFields a1 l = expFields a2 l
  | [], _, _, _ => rfl
  | f :: rest, a1, a2, h => by
    simp only [expFields]
    rw [expField_congr f a1 a2 (fun k hk => h k (by
        simp only [recKeys, List.mem_append]
        exact Or.inl hk)),
      expFields_congr rest a1 a2 (fun k hk => h k (by
        simp only [recKeys, List.mem_append]
        exact Or.inr hk))]

end

theorem lookupKey_map_expField (a : Args) :
    ∀ (l : List SField) (f : SField), f ∈ l → (l.map SField.name).Nodup →
      lookupKey f.name (l.map (fun g => expField a g)) = some (expField a f).2
  | [], f, hf, _ => by simp at hf
  | g :: rest, f, hf, hnd => by
    simp only [List.map_cons, List.nodup_cons] at hnd
    simp only [List.map_cons, lookupKey]
    rw [expField_fst]
    by_cases h : g.name = f.name
    · have hfg : f = g := by
        rcases List.mem_cons.mp hf with rfl | hmem
        · rfl
        · exfalso
          apply hnd.1
          rw [h]
          exact List.mem_map.mpr ⟨f, hmem, rfl⟩
      subst hfg
      simp
    · rcases List.mem_cons.mp hf with rfl | hmem
      · exact absurd rfl h
      · simp [h]
        exact lookupKey_map_expField a rest f hmem hnd.2

theorem mkCls_go_expected (a : Args) (u : List (String × InstVal)) :
    ∀ (fields : List SField),
      (∀ f ∈ fields, lookupKey f.name u = some (expField a f).2) →
      mkCls.go u fields = .ok (expFields a fields)
  | [], _ => by simp [mkCls.go, expFields]
  | f :: rest, h => by
    have h1 := h f (List.mem_cons_self _ _)
    have h2 := mkCls_go_expected a u rest
      (fun g hg => h g (List.mem_cons_of_mem _ hg))
    simp only [mkCls.go, h1, h2, expFields]
    rw [← expField_fst a f, Prod.mk.eta]

theorem mkCls_expected (fields sflds : List SField) (a : Args)
    (hperm : sflds.Perm fields) (hnd : (sflds.map SField.name).Nodup) :
    mkCls fields (sflds.map (fun g => expField a g)) = .ok (expFields a fields) := by
  unfold mkCls
  rw [if_pos]
  · apply mkCls_go_expected
    intro f hf
    exact lookupKey_map_expField a sflds f (hperm.mem_iff.mpr hf) hnd
  · rw [List.all_eq_true]
    intro kv hkv
    rw [List.mem_map] at hkv
    obtain ⟨g, hg, rfl⟩ := hkv
    rw [List.any_eq_true]
    exact ⟨g, hperm.mem_iff.mp hg, by simp [expField_fst]⟩

/-- The heart of the round trip: on a wellformed schema, the unflattener
rebuilds from any total namespace (one entry per leaf key, in any order)
exactly the instance the spec promises. -/
theorem recon_ok : ∀ (n : Nat) (fields : List SField) (args : Args),
    sizeOf fields ≤ n → wfFields fields = true →
    (args.map Prod.fst).Perm (recKeys fields) →
    buildRecordInstance fields args = .ok (expFields args fields) := by
  intro n
  induction n using Nat.strong_induction_on with
  | _ n IH =>
    intro fields args hsz hwf hperm
    have hnodup : (args.map Prod.fst).Nodup :=
      (hperm.nodup_iff).mpr (recKeys_nodup fields hwf)
    have hgo : ∀ (sflds : List SField), sizeOf sflds ≤ sizeOf fields →
        (∀ f ∈ sflds, wfField f = true) →
        sflds.Pairwise Rp →
        sflds.Pairwise (fun a b => fieldLe a b = true) →
        ∀ (args2 : Args),
          List.Sorted (fun a b => keyLe a b = true) args2 →
          (args2.map Prod.fst).Nodup →
          (args2.map Prod.fst).Perm (recKeys sflds) →
          goFields sflds args2 = .ok (sflds.map (fun g => expField args2 g)) := by
      intro sflds
      induction sflds with
      | nil =>
        intro _ _ _ _ args2 _ _ _
        simp [goFields]
      | cons f rest ihrest =>
        intro hsz2 hallwf hrp hfle args2 hsorted hnd2 hperm2
        have hszrest : sizeOf rest ≤ sizeOf fields := by
          have : sizeOf rest ≤ sizeOf (f :: rest) := by simp_arith
          omega
        have hwff : wfField f = true := hallwf f (List.mem_cons_self _ _)
        rw [List.pairwise_cons] at hrp hfle
        obtain ⟨hrpf, hrpt⟩ := hrp
        obtain ⟨hflef, hflet⟩ := hfle
        obtain ⟨fname, fty, fal, fdf⟩ := f
        have hkeymem : ∀ k, k ∈ args2.map Prod.fst ↔
            k ∈ fieldKeys (.mk fname fty fal fdf) ∨ k ∈ recKeys rest := by
          intro k
          rw [hperm2.mem_iff]
          simp [recKeys]
        have hQ1true : ∀ k ∈ fieldKeys (.mk fname fty fal fdf),
            (k == fname || startswith fname k) = true := by
          intro k hk
          have hsw := startswith_fieldKeys _ k hk
          simp only [SField.name] at hsw
          simp [hsw]
        have hQ1false : ∀ k ∈ recKeys rest,
            (k == fname || startswith fname k) = false := by
          intro k hk
          rw [mem_recKeys] at hk
          obtain ⟨g, hg, hkg⟩ := hk
          have hsw := (hrpf g hg).1 k hkg
          simp only [SField.name] at hsw
          have hne : k ≠ fname := by
            intro h
            subst h
            rw [startswith_refl] at hsw
            simp at hsw
          simp [hne, hsw]
        obtain ⟨k0, hk0⟩ := List.exists_mem_of_ne_nil _ (fieldKeys_ne_nil _ hwff)
        have hk0mem : k0 ∈ args2.map Prod.fst := (hkeymem k0).mpr (Or.inl hk0)
        obtain ⟨kv0, hkv0, hkv0eq⟩ := List.mem_map.mp hk0mem
        rcases hfind : args2.find?
            (fun kv => kv.1 == fname || startswith fname kv.1) with _ | kv
        · exfalso
          have h := List.find?_eq_none.mp hfind kv0 hkv0
          exact h (by rw [hkv0eq]; exact hQ1true k0 hk0)
        · have hkvP := List.find?_some hfind
          have hkvmem := List.mem_of_find?_eq_some hfind
          have hkv1 : kv.1 ∈ fieldKeys (.mk fname fty fal fdf) := by
            have hmemk : kv.1 ∈ args2.map Prod.fst :=
              List.mem_map.mpr ⟨kv, hkvmem, rfl⟩
            rcases (hkeymem kv.1).mp hmemk with h | h
            · exact h
            · rw [hQ1false kv.1 h] at hkvP
              exact absurd hkvP (by simp)
          cases fty
          case frecord sub =>
            have hkvform : ∃ k2, kv.1 = fname ++ "_" ++ k2 := by
              simp only [fieldKeys, List.mem_map] at hkv1
              obtain ⟨k2, _, hke⟩ := hkv1
              exact ⟨k2, hke.symm⟩
            obtain ⟨k2, hkve⟩ := hkvform
            have hkvne : (kv.1 == fname) = false := by
              rw [hkve]
              simp [underscore_key_ne fname k2]
            have hQ2true : ∀ k ∈ fieldKeys (.mk fname (.frecord sub) fal fdf),
                startswith fname k = true := by
              intro k hk
              have hsw := startswith_fieldKeys _ k hk
              simpa only [SField.name] using hsw
            have hQ2false : ∀ k ∈ recKeys rest, startswith fname k = false := by
              intro k hk
              have h := hQ1false k hk
              rw [Bool.or_eq_false_iff] at h
              exact h.2
            have horder : ∀ kv2 ∈ args2, ∀ kv3 ∈ args2,
                startswith fname kv2.1 = true →
                startswith fname kv3.1 = false →
                lexLt kv2.1.data kv3.1.data = true := by
              intro kv2 hkv2 kv3 hkv3 h2 h3
              have hm2 : kv2.1 ∈ args2.map Prod.fst := List.mem_map.mpr ⟨kv2, hkv2, rfl⟩
              have hm3 : kv3.1 ∈ args2.map Prod.fst := List.mem_map.mpr ⟨kv3, hkv3, rfl⟩
              have h2f : kv2.1 ∈ fieldKeys (.mk fname (.frecord sub) fal fdf) := by
                rcases (hkeymem kv2.1).mp hm2 with h | h
                · exact h
                · rw [hQ2false kv2.1 h] at h2
                  exact absurd h2 (by simp)
              have h3r : kv3.1 ∈ recKeys rest := by
                rcases (hkeymem kv3.1).mp hm3 with h | h
                · rw [hQ2true kv3.1 h] at h3
                  exact absurd h3 (by simp)
                · exact h
              rw [mem_recKeys] at h3r
              obtain ⟨g, hg, hkg⟩ := h3r
              exact keys_order (hflef g hg) (hrpf g hg) kv2.1 h2f kv3.1 hkg
            have hfb := front_block (fun kv => startswith fname kv.1) args2
              hsorted horder
            have hQeq : ∀ kv2 ∈ args2,
                startswith fname kv2.1 = startswith (fname ++ "_") kv2.1 := by
              intro kv2 hkv2
              have hm2 : kv2.1 ∈ args2.map Prod.fst := List.mem_map.mpr ⟨kv2, hkv2, rfl⟩
              rcases (hkeymem kv2.1).mp hm2 with h | h
              · rw [hQ2true kv2.1 h]
                simp only [fieldKeys, List.mem_map] at h
                obtain ⟨k3, _, hk3⟩ := h
                rw [← hk3]
                exact (startswith_append (fname ++ "_") k3).symm
              · rw [hQ2false kv2.1 h]
                cases hsw : startswith (fname ++ "_") kv2.1 with
                | false => rfl
                | true =>
                  have h2 : startswith fname kv2.1 = true :=
                    startswith_trans (startswith_append fname "_") hsw
                  rw [hQ2false kv2.1 h] at h2
                  exact absurd h2 (by simp)
            have hrun : args2.takeWhile (fun kv => startswith fname kv.1) =
                args2.filter (fun kv => startswith (fname ++ "_") kv.1) := by
              rw [hfb.1]
              exact List.filter_congr hQeq
            have hsubeq : (args2.takeWhile (fun kv => startswith fname kv.1)).map
                  (fun kv => (strDropn kv.1 (fname.length + 1), kv.2)) =
                subArgsFor fname args2 := by
              rw [hrun]
              rfl
            have hsubwf := wfField_record hwff
            have hkeysf : ((args2.map Prod.fst).filter
                  (fun k => startswith (fname ++ "_") k)).Perm
                (fieldKeys (.mk fname (.frecord sub) fal fdf)) := by
              have h1 := hperm2.filter (fun k => startswith (fname ++ "_") k)
              rw [show recKeys (.mk fname (.frecord sub) fal fdf :: rest) =
                  fieldKeys (.mk fname (.frecord sub) fal fdf) ++ recKeys rest
                  from rfl, List.filter_append] at h1
              have hA : (fieldKeys (.mk fname (.frecord sub) fal fdf)).filter
                  (fun k => startswith (fname ++ "_") k) =
                  fieldKeys (.mk fname (.frecord sub) fal fdf) :=
                List.filter_eq_self.mpr (by
                  intro k hk
                  simp only [fieldKeys, List.mem_map] at hk
                  obtain ⟨k3, _, hk3⟩ := hk
                  rw [← hk3]
                  exact startswith_append (fname ++ "_") k3)
              have hB : (recKeys rest).filter
                  (fun k => startswith (fname ++ "_") k) = [] :=
                List.filter_eq_nil_iff.mpr (by
                  intro k hk hsw
                  have h2 : startswith fname k = true :=
                    startswith_trans (startswith_append fname "_") hsw
                  rw [hQ2false k hk] at h2
                  exact absurd h2 (by simp))
              rw [hA, hB, List.append_nil] at h1
              exact h1
            have hsubperm : ((subArgsFor fname args2).map Prod.fst).Perm
                (recKeys sub) := by
              have h1 : (subArgsFor fname args2).map Prod.fst =
                  ((args2.map Prod.fst).filter
                    (fun k => startswith (fname ++ "_") k)).map
                    (fun k => strDropn k (fname.length + 1)) := by
                unfold subArgsFor
                rw [List.map_map, ← map_fst_filter, List.map_map]
                rfl
              rw [h1]
              have h2 := hkeysf.map (fun k => strDropn k (fname.length + 1))
              refine h2.trans ?_
              have h3 : (fieldKeys (.mk fname (.frecord sub) fal fdf)).map
                  (fun k => strDropn k (fname.length + 1)) = recKeys sub := by
                simp only [fieldKeys, List.map_map]
                have h4 : ∀ k ∈ recKeys sub,
                    ((fun k => strDropn k (fname.length + 1)) ∘
                      (fun k => fname ++ "_" ++ k)) k = id k := by
                  intro k _
                  simp only [Function.comp_apply, id_eq]
                  exact strDropn_key fname k
                rw [List.map_congr_left h4, List.map_id]
              rw [h3]
            have hsizesub : sizeOf sub < n := by
              have h1 : sizeOf sub < sizeOf (SField.mk fname (.frecord sub) fal fdf) := by
                simp_arith
              have h2 : sizeOf (SField.mk fname (.frecord sub) fal fdf) ≤
                  sizeOf (SField.mk fname (.frecord sub) fal fdf :: rest) := by
                simp_arith
              omega
            have hbuild := IH (sizeOf sub) hsizesub sub (subArgsFor fname args2)
              (le_refl _) hsubwf.2.2 hsubperm
            have hremfilter := hfb.2
            have hremsl : (args2.dropWhile (fun kv => startswith fname kv.1)).Sublist
                args2 := List.dropWhile_sublist _
            have hsorted3 : List.Sorted (fun a b => keyLe a b = true)
                (args2.dropWhile (fun kv => startswith fname kv.1)) :=
              List.Pairwise.sublist hremsl hsorted
            have hnd3 : ((args2.dropWhile
                  (fun kv => startswith fname kv.1)).map Prod.fst).Nodup :=
              (hremsl.map Prod.fst).nodup hnd2
            have hperm3 : ((args2.dropWhile
                  (fun kv => startswith fname kv.1)).map Prod.fst).Perm
                (recKeys rest) := by
              rw [hremfilter]
              rw [map_fst_filter (fun k => !(startswith fname k)) args2]
              have h1 := hperm2.filter (fun k => !(startswith fname k))
              rw [show recKeys (.mk fname (.frecord sub) fal fdf :: rest) =
                  fieldKeys (.mk fname (.frecord sub) fal fdf) ++ recKeys rest
                  from rfl, List.filter_append] at h1
              have hA : (fieldKeys (.mk fname (.frecord sub) fal fdf)).filter
                  (fun k => !(startswith fname k)) = [] :=
                List.filter_eq_nil_iff.mpr (by
                  intro k hk
                  simp [hQ2true k hk])
              have hB : (recKeys rest).filter
                  (fun k => !(startswith fname k)) = recKeys rest :=
                List.filter_eq_self.mpr (by
                  intro k hk
                  simp [hQ2false k hk])
              rw [hA, hB, List.nil_append] at h1
              exact h1
            have hrec := ihrest hszrest
              (fun g hg => hallwf g (List.mem_cons_of_mem _ hg)) hrpt hflet
              (args2.dropWhile (fun kv => startswith fname kv.1))
              hsorted3 hnd3 hperm3
            have hlook : ∀ g ∈ rest, ∀ k ∈ fieldKeys g,
                lookupKey k (args2.dropWhile (fun kv => startswith fname kv.1)) =
                  lookupKey k args2 := by
              intro g hg k hk
              have hkr : k ∈ recKeys rest := (mem_recKeys rest k).mpr ⟨g, hg, hk⟩
              conv_rhs => rw [← List.takeWhile_append_dropWhile
                (fun kv => startswith fname kv.1) args2]
              rw [lookupKey_append]
              have hnone : lookupKey k
                  (args2.takeWhile (fun kv => startswith fname kv.1)) = none := by
                rw [lookupKey_eq_none_iff]
                intro kv2 hkv2
                have hP2 := List.mem_takeWhile_imp hkv2
                intro hc
                rw [hc, hQ2false k hkr] at hP2
                exact absurd hP2 (by simp)
              rw [hnone]
              rfl
            simp only [goFields, hfind, hkvne, Bool.false_eq_true, if_false,
              hsubeq, hbuild, hrec]
            rw [List.map_congr_left (fun g hg =>
              expField_congr g _ _ (fun k hk => hlook g hg k hk))]
            simp [expField]
          all_goals {
            have hkv1n : kv.1 = fname := by
              simp only [fieldKeys] at hkv1
              simpa using hkv1
            have hkvpair : (fname, kv.2) ∈ args2 := by
              rw [← hkv1n]
              exact hkvmem
            have hlk : lookupKey fname args2 = some kv.2 :=
              lookupKey_eq_some_of_mem hnd2 hkvpair
            have herase := eraseKey_sublist fname args2
            have hsorted3 : List.Sorted (fun a b => keyLe a b = true)
                (eraseKey fname args2) :=
              List.Pairwise.sublist herase hsorted
            have hnd3 : ((eraseKey fname args2).map Prod.fst).Nodup := by
              rw [eraseKey_map_fst]
              exact hnd2.erase fname
            have hperm3 : ((eraseKey fname args2).map Prod.fst).Perm
                (recKeys rest) := by
              rw [eraseKey_map_fst]
              refine (hperm2.erase fname).trans ?_
              simp only [recKeys, fieldKeys, List.singleton_append,
                List.erase_cons_head]
              exact List.Perm.refl _
            have hrec := ihrest hszrest
              (fun g hg => hallwf g (List.mem_cons_of_mem _ hg)) hrpt hflet
              (eraseKey fname args2) hsorted3 hnd3 hperm3
            have hlook : ∀ g ∈ rest, ∀ k ∈ fieldKeys g,
                lookupKey k (eraseKey fname args2) = lookupKey k args2 := by
              intro g hg k hk
              have hkr : k ∈ recKeys rest := (mem_recKeys rest k).mpr ⟨g, hg, hk⟩
              have hne : k ≠ fname := by
                have h := hQ1false k hkr
                rw [Bool.or_eq_false_iff] at h
                simpa using h.1
              exact lookupKey_eraseKey_other k fname hne args2
            simp only [goFields, hfind, hkv1n, beq_self_eq_true, if_true, hrec]
            rw [List.map_congr_left (fun g hg =>
              expField_congr g _ _ (fun k hk => hlook g hg k hk))]
            simp [expField, hlk] }
    have hsf_perm := sortFields_perm fields
    have hpairRp : (sortFields fields).Pairwise Rp :=
      (hsf_perm.symm.pairwise_iff @Rp_symm).mp (wfFields_pairwise fields hwf)
    have hallwf : ∀ f ∈ sortFields fields, wfField f = true :=
      fun f hf => wfFields_all_wf fields hwf f (hsf_perm.mem_iff.mp hf)
    have hsz2 : sizeOf (sortFields fields) ≤ sizeOf fields :=
      le_of_eq (hsf_perm.sizeOf_eq_sizeOf)
    have hnd2 : ((sortArgs args).map Prod.fst).Nodup :=
      (((sortArgs_perm args).map Prod.fst).nodup_iff).mpr hnodup
    have hperm2 : ((sortArgs args).map Prod.fst).Perm
        (recKeys (sortFields fields)) :=
      ((sortArgs_perm args).map Prod.fst).trans
        (hperm.trans (recKeys_perm hsf_perm.symm))
    have hmain := hgo (sortFields fields) hsz2 hallwf hpairRp
      (sortFields_sorted fields) (sortArgs args) (sortArgs_sorted args)
      hnd2 hperm2
    have hnames : ((sortFields fields).map SField.name).Nodup :=
      ((hsf_perm.map SField.name).nodup_iff).mpr (wfFields_names_nodup fields hwf)
    simp only [buildRecordInstance, hmain]
    rw [mkCls_expected fields (sortFields fields) (sortArgs args) hsf_perm hnames]
    have hcongr : expFields (sortArgs args) fields = expFields args fields :=
      expFields_congr fields _ _
        (fun k _ => lookupKey_perm k (sortArgs_perm args) hnd2)
    rw [hcongr]

theorem strDropn_marker (s : String) : strDropn ("--" ++ s) 2 = s := by
  apply strData_inj
  show (("--" ++ s).data.drop 2) = s.data
  rw [data_marker]
  rfl

theorem underscore_hyph (n : String) (h : n.data.contains '-' = false) :
    underscore (hyph n) = n := by
  apply strData_inj
  show ((n.data.map (fun c => if c = '_' then '-' else c)).map
    (fun c => if c = '-' then '_' else c)) = n.data
  rw [List.map_map]
  have hpt : ∀ c ∈ n.data, ((fun c => if c = '-' then '_' else c) ∘
      (fun c => if c = '_' then '-' else c)) c = id c := by
    intro c hc
    have hcne : c ≠ '-' := by
      intro hcc
      subst hcc
      rw [List.contains_eq_any_beq] at h
      rw [List.any_eq_false] at h
      have := h '-' hc
      simp at this
    simp only [Function.comp_apply, id_eq]
    by_cases hu : c = '_'
    · simp [hu]
    · simp [hu, hcne]
  rw [List.map_congr_left hpt, List.map_id]

theorem underscore_append (a b : String) :
    underscore (a ++ b) = underscore a ++ underscore b := by
  apply strData_inj
  show ((a ++ b).data.map (fun c => if c = '-' then '_' else c)) =
    (underscore a ++ underscore b).data
  rw [String.data_append, String.data_append, List.map_append]
  rfl

theorem goodName_no_hyphen {n : String} (h : goodName n = true) :
    n.data.contains '-' = false := by
  simp only [goodName, Bool.and_eq_true] at h
  simpa using h.2

theorem underscore_chainStr : ∀ (c : List String),
    (∀ x ∈ c, goodName x = true) → underscore (chainStr c) = keyStr c
  | [], _ => rfl
  | [n], h => by
    simp only [chainStr, keyStr]
    exact underscore_hyph n (goodName_no_hyphen (h n (by simp)))
  | n :: m :: rest, h => by
    simp only [chainStr, keyStr]
    rw [underscore_append, underscore_append]
    rw [underscore_chainStr (m :: rest) (fun x hx => h x (List.mem_cons_of_mem _ hx))]
    rw [underscore_hyph n (goodName_no_hyphen (h n (List.mem_cons_self _ _)))]
    have hd : underscore "-" = "_" := by decide
    rw [hd]

mutual

theorem fieldChains_good : ∀ (f : SField), wfField f = true →
    ∀ c ∈ fieldChains f, ∀ x ∈ c, goodName x = true
  | .mk n ty al df, hw, c, hc, x, hx => by
    cases ty <;> simp only [fieldChains] at hc
    case frecord sub =>
      rw [List.mem_map] at hc
      obtain ⟨c0, hc0, rfl⟩ := hc
      rcases List.mem_cons.mp hx with rfl | hmem
      · exact (wfField_record hw).1
      · exact chainsOf_good sub (wfField_record hw).2.2 c0 hc0 x hmem
    all_goals {
      rw [List.mem_singleton] at hc
      subst hc
      rw [List.mem_singleton] at hx
      subst hx
      exact wfField_name hw }

theorem chainsOf_good : ∀ (l : List SField), wfFields l = true →
    ∀ c ∈ chainsOf l, ∀ x ∈ c, goodName x = true
  | [], _, c, hc, x, hx => by simp [chainsOf] at hc
  | f :: rest, hw, c, hc, x, hx => by
    simp only [chainsOf] at hc
    rcases List.mem_append.mp hc with h | h
    · exact fieldChains_good f (wfFields_head hw) c h x hx
    · exact chainsOf_good rest (wfFields_tail hw) c h x hx

end

theorem keyStr_cons (n : String) (c : List String) (hc : c ≠ []) :
    keyStr (n :: c) = n ++ "_" ++ keyStr c := by
  cases c with
  | nil => exact absurd rfl hc
  | cons m rest => rfl

mutual

theorem fieldKeys_eq_chains : ∀ (f : SField),
    fieldKeys f = (fieldChains f).map keyStr
  | .mk n ty al df => by
    cases ty <;> simp only [fieldKeys, fieldChains]
    case frecord sub =>
      rw [recKeys_eq_chains sub, List.map_map, List.map_map]
      apply List.map_congr_left
      intro c hc
      simp only [Function.comp_apply]
      rw [keyStr_cons n c (chainsOf_ne_nil sub c hc)]
    all_goals rfl

theorem recKeys_eq_chains : ∀ (l : List SField),
    recKeys l = (chainsOf l).map keyStr
  | [] => rfl
  | f :: rest => by
    simp only [recKeys, chainsOf, List.map_append]
    rw [fieldKeys_eq_chains f, recKeys_eq_chains rest]

end

theorem buildTopActs_chains : ∀ (fields : List SField) (flags : List Flag),
    buildTopActs fields = .ok flags →
    flags.map (fun fl => fl.aliases.head?) =
      (chainsOf fields).map (fun c => some ("--" ++ chainStr c))
  | [], flags, h => by
    cases h
    rfl
  | f :: rest, flags, h => by
    simp only [buildTopActs] at h
    split at h
    · cases h
    · rename_i a1 h1
      split at h
      · cases h
      · rename_i more h2
        cases h
        simp only [chainsOf, List.map_append]
        congr 1
        · exact buildActs_chains f a1 h1
        · exact buildTopActs_chains rest more h2

theorem dests_of_chains : ∀ (flags : List Flag) (cs : List (List String)),
    flags.map (fun fl => fl.aliases.head?) =
      cs.map (fun c => some ("--" ++ chainStr c)) →
    flags.map destOf = cs.map (fun c => underscore (chainStr c))
  | [], [], _ => rfl
  | [], c :: cs, h => by simp at h
  | fl :: flags, [], h => by simp at h
  | fl :: flags, c :: cs, h => by
    simp only [List.map_cons, List.cons.injEq] at h ⊢
    obtain ⟨h1, h2⟩ := h
    constructor
    · rcases hal : fl.aliases with _ | ⟨a, as⟩
      · rw [hal] at h1
        simp at h1
      · rw [hal] at h1
        simp only [List.head?_cons, Option.some.injEq] at h1
        simp only [destOf, hal]
        rw [h1, strDropn_marker]
    · exact dests_of_chains flags cs h2

/-- With a wellformed schema, the parser's destination names are exactly the
underscore-joined leaf key chains, in declaration order. -/
theorem dests_eq_recKeys (fields : List SField) (flags : List Flag)
    (hwf : wfFields fields = true)
    (h : buildTopActs fields = .ok flags) :
    flags.map destOf = recKeys fields := by
  have h1 := dests_of_chains flags (chainsOf fields) (buildTopActs_chains fields flags h)
  rw [h1, recKeys_eq_chains]
  apply List.map_congr_left
  intro c hc
  exact underscore_chainStr c (chainsOf_good fields hwf c hc)

theorem parseLoop_keys (flags : List Flag) :
    ∀ (argv : List String) (ns : List (String × PVal)) (seen : List String)
      (ns2 : List (String × PVal)) (seen2 : List String),
      parseLoop flags argv ns seen = .ok (ns2, seen2) →
      ns2.map Prod.fst = ns.map Prod.fst
  | [], ns, seen, ns2, seen2, h => by
    cases h
    rfl
  | t :: rest, ns, seen, ns2, seen2, h => by
    simp only [parseLoop] at h
    split at h
    · cases h
    · rename_i fl heqf
      split at h
      · rename_i b heqk
        rw [parseLoop_keys flags rest _ _ _ _ h, updateKey_map_fst]
      · rename_i conv fd req heqk
        split at h
        · cases h
        · rename_i v rest2
          split at h
          · cases h
          · rename_i pv heqc
            rw [parseLoop_keys flags rest2 _ _ _ _ h, updateKey_map_fst]

theorem parseLoop_values (flags : List Flag) :
    ∀ (argv : List String) (ns : List (String × PVal)) (seen : List String)
      (ns2 : List (String × PVal)) (seen2 : List String),
      parseLoop flags argv ns seen = .ok (ns2, seen2) →
      (∀ fl ∈ flags, destOf fl ∈ ns.map Prod.fst) →
      ∀ d, lookupKey d ns2 =
        ((lookupKey d (updatesOf flags argv).reverse).or (lookupKey d ns))
  | [], ns, seen, ns2, seen2, h, _, d => by
    cases h
    simp [updatesOf, lookupKey]
  | t :: rest, ns, seen, ns2, seen2, h, hkeys, d => by
    simp only [parseLoop] at h
    split at h
    · cases h
    · rename_i fl heqf
      have hflmem : fl ∈ flags := List.mem_of_find?_eq_some heqf
      split at h
      · rename_i b heqk
        have hkeys2 : ∀ fl2 ∈ flags,
            destOf fl2 ∈ (updateKey (destOf fl) (.vbool b) ns).map Prod.fst := by
          intro fl2 hfl2
          rw [updateKey_map_fst]
          exact hkeys fl2 hfl2
        have ih := parseLoop_values flags rest _ _ _ _ h hkeys2 d
        have hupd : updatesOf flags (t :: rest) =
            (destOf fl, PVal.vbool b) :: updatesOf flags rest := by
          simp only [updatesOf, heqf, heqk]
        rw [ih, hupd, List.reverse_cons, lookupKey_append, Option.or_assoc]
        congr 1
        by_cases hd : d = destOf fl
        · subst hd
          rw [lookupKey_updateKey_self _ _ ns (hkeys fl hflmem)]
          simp [lookupKey]
        · rw [lookupKey_updateKey_other _ _ _ hd ns]
          simp [lookupKey, Ne.symm hd]
      · rename_i conv fd req heqk
        split at h
        · cases h
        · rename_i v rest2
          split at h
          · cases h
          · rename_i pv heqc
            have hkeys2 : ∀ fl2 ∈ flags,
                destOf fl2 ∈ (updateKey (destOf fl) pv ns).map Prod.fst := by
              intro fl2 hfl2
              rw [updateKey_map_fst]
              exact hkeys fl2 hfl2
            have ih := parseLoop_values flags rest2 _ _ _ _ h hkeys2 d
            have hupd : updatesOf flags (t :: v :: rest2) =
                (destOf fl, pv) :: updatesOf flags rest2 := by
              simp only [updatesOf, heqf, heqk, heqc]
            rw [ih, hupd, List.reverse_cons, lookupKey_append, Option.or_assoc]
            congr 1
            by_cases hd : d = destOf fl
            · subst hd
              rw [lookupKey_updateKey_self _ _ ns (hkeys fl hflmem)]
              simp [lookupKey]
            · rw [lookupKey_updateKey_other _ _ _ hd ns]
              simp [lookupKey, Ne.symm hd]

/-- The accepted namespace: one entry per declared flag, holding the last
value argv supplied for its destination, or its initial (default) value. -/
theorem parseArgsModel_spec (flags : List Flag) (argv : List String)
    (ns : List (String × PVal)) (h : parseArgsModel flags argv = .ok ns)
    (hdnodup : (flags.map destOf).Nodup) :
    ns.map Prod.fst = flags.map destOf ∧
    ∀ fl ∈ flags, lookupKey (destOf fl) ns =
      some ((lookupKey (destOf fl) (updatesOf flags argv).reverse).getD
        (initVal fl.kind)) := by
  unfold parseArgsModel at h
  rcases heqp : parseLoop flags argv
      (flags.map fun fl => (destOf fl, initVal fl.kind)) [] with e | ⟨ns0, seen0⟩
  · rw [heqp] at h
    cases h
  · simp only [heqp] at h
    by_cases hreq : requiredOk flags seen0 = true
    · rw [if_pos hreq] at h
      cases h
      have hinitkeys : ((flags.map
          (fun fl => (destOf fl, initVal fl.kind))).map Prod.fst) =
          flags.map destOf := by
        rw [List.map_map]
        exact List.map_congr_left (fun _ _ => rfl)
      have hkeys0 : ∀ fl ∈ flags, destOf fl ∈
          ((flags.map (fun fl => (destOf fl, initVal fl.kind))).map Prod.fst) := by
        intro fl hfl
        rw [hinitkeys]
        exact List.mem_map.mpr ⟨fl, hfl, rfl⟩
      constructor
      · rw [parseLoop_keys flags argv _ _ _ _ heqp, hinitkeys]
      · intro fl hfl
        have hv := parseLoop_values flags argv _ _ _ _ heqp hkeys0 (destOf fl)
        have hinitlk : lookupKey (destOf fl)
            (flags.map (fun fl => (destOf fl, initVal fl.kind))) =
            some (initVal fl.kind) := by
          apply lookupKey_eq_some_of_mem
          · rw [hinitkeys]
            exact hdnodup
          · exact List.mem_map.mpr ⟨fl, hfl, rfl⟩
        rw [hv, hinitlk]
        rcases lookupKey (destOf fl) (updatesOf flags argv).reverse with _ | v
        · rfl
        · rfl
    · rw [if_neg hreq] at h
      cases h

/-- C3 (amended): for a schema satisfying the separation proviso (nonempty
hyphen-free field names, no sibling name a string prefix of another
sibling's name or keys, nonempty nested schemas), and any argv the built
parser accepts: the parser's destinations are exactly the underscore-joined
leaf chains, the accepted namespace maps each destination to the last value
argv supplied for it (its declared initial value when argv never set it),
and reconstruction succeeds, rebuilding exactly the nested instance whose
every leaf holds its destination's namespace value — so each field value is
the value implied by argv where a flag was supplied and the declared
default otherwise. -/
theorem c3_round_trip (fields : List SField) (argv : List String)
    (flags : List Flag) (ns : List (String × PVal))
    (hwf : wfFields fields = true)
    (hb : makeParserFlags fields = .ok flags)
    (hp : parseArgsModel flags argv = .ok ns) :
    flags.map destOf = recKeys fields ∧
    (∀ fl ∈ flags, lookupKey (destOf fl) ns =
      some ((lookupKey (destOf fl) (updatesOf flags argv).reverse).getD
        (initVal fl.kind))) ∧
    buildRecordInstance fields ns = .ok (expFields ns fields) ∧
    parseFull fields argv = .ok (expFields ns fields) := by
  have htop : buildTopActs fields = .ok flags := by
    unfold makeParserFlags at hb
    rcases htop : buildTopActs fields with e | flags0
    · rw [htop] at hb
      cases hb
    · simp only [htop] at hb
      by_cases hnd : (flags0.flatMap (fun fl => fl.aliases)).Nodup
      · rw [if_pos hnd] at hb
        cases hb
        rfl
      · rw [if_neg hnd] at hb
        cases hb
  have hdest : flags.map destOf = recKeys fields :=
    dests_eq_recKeys fields flags hwf htop
  have hdnodup : (flags.map destOf).Nodup := by
    rw [hdest]
    exact recKeys_nodup fields hwf
  obtain ⟨hkeys, hvals⟩ := parseArgsModel_spec flags argv ns hp hdnodup
  have hperm : (ns.map Prod.fst).Perm (recKeys fields) := by
    rw [hkeys, hdest]
  have hrecon := recon_ok (sizeOf fields) fields ns (le_refl _) hwf hperm
  refine ⟨hdest, hvals, hrecon, ?_⟩
  simp only [parseFull, hb, hp, hrecon]

/-- The prefix-sibling schema of the counterexample: a record field `a`
(with leaf `x`) next to a plain sibling `a_b` whose name extends `a`. -/
def c3Fields : List SField :=
  [.mk "a" (.frecord [.mk "x" (.fbase convStr) [] none]) [] none,
   .mk "a_b" (.fbase convStr) [] none]

/-- The flags the parser declares for `c3Fields`. -/
def c3Flags : List Flag :=
  [⟨["--a-x"], .store convStr none true⟩,
   ⟨["--a-b"], .store convStr none true⟩]

/-- C3 counterexample: the parser built from the prefix-sibling schema
accepts `--a-x 1 --a-b 2`, but reconstruction fails — the sibling key
`a_b` is swallowed into field `a`'s prefix scan, so `a_b` itself goes
unresolved and the construction errors instead of producing the instance
the claim promises. -/
theorem c3_counterexample :
    makeParserFlags c3Fields = .ok c3Flags ∧
    parseArgsModel c3Flags ["--a-x", "1", "--a-b", "2"] = .ok
      [("a_x", .vstr "1"), ("a_b", .vstr "2")] ∧
    parseFull c3Fields ["--a-x", "1", "--a-b", "2"] =
      .error (.reconErr .missingArg) := by
  have h1 : makeParserFlags c3Fields = .ok c3Flags := by
    have htop : buildTopActs c3Fields = .ok c3Flags := by
      simp only [c3Fields, c3Flags, buildTopActs, buildActs, buildRecordActs,
        prefixFlags, prefixAliases, canonicalAlias, String.append_assoc,
        addAliasPre_marker, defaultP, Option.isNone_none]
      have e1 : "--" ++ (hyph "a" ++ ("-" ++ hyph "x")) = "--a-x" := by decide
      have e2 : "--" ++ hyph "a_b" = "--a-b" := by decide
      rw [e1, e2]
      rfl
    simp only [makeParserFlags, htop]
    rw [if_pos (by decide)]
  have h2 : parseArgsModel c3Flags ["--a-x", "1", "--a-b", "2"] = .ok
      [("a_x", .vstr "1"), ("a_b", .vstr "2")] := by decide
  refine ⟨h1, h2, ?_⟩
  have h3 : buildRecordInstance c3Fields
      [("a_x", PVal.vstr "1"), ("a_b", PVal.vstr "2")] =
      .error .missingArg := by
    have hsf : sortFields
        [SField.mk "a" (FTy.frecord [SField.mk "x" (FTy.fbase convStr) [] none]) [] none,
         SField.mk "a_b" (FTy.fbase convStr) [] none] =
        [SField.mk "a" (FTy.frecord [SField.mk "x" (FTy.fbase convStr) [] none]) [] none,
         SField.mk "a_b" (FTy.fbase convStr) [] none] := rfl
    have hsf2 : sortFields [SField.mk "x" (FTy.fbase convStr) [] none] =
        [SField.mk "x" (FTy.fbase convStr) [] none] := rfl
    simp only [c3Fields, buildRecordInstance, hsf, hsf2, goFields, mkCls,
      mkCls.go, sortArgs, List.insertionSort, List.orderedInsert, keyLe,
      fieldLe, lexLt, startswith, strDropn, lookupKey, eraseKey, SField.name,
      SField.ty, SField.fdefault] <;> decide
  simp only [parseFull, h1, h2, h3]

/-- A wellformed two-field schema for the round-trip witness: nested record
`a.x` and a defaulted sibling `b`. -/
def c3WFields : List SField :=
  [.mk "a" (.frecord [.mk "x" (.fbase convStr) [] none]) [] none,
   .mk "b" (.fbase convStr) [] (some (.prim (.vstr "d")))]

/-- The flags the parser declares for `c3WFields`. -/
def c3WFlags : List Flag :=
  [⟨["--a-x"], .store convStr none true⟩,
   ⟨["--b"], .store convStr (some (.vstr "d")) false⟩]

/-- Witness for C3: on the wellformed schema, `--a-x 1` parses to the
namespace `{a_x: "1", b: "d"}` and reconstructs to the nested instance with
`a.x = "1"` (supplied) and `b = "d"` (default). -/
theorem c3_round_trip_witness :
    wfFields c3WFields = true ∧
    makeParserFlags c3WFields = .ok c3WFlags ∧
    parseArgsModel c3WFlags ["--a-x", "1"] = .ok
      [("a_x", .vstr "1"), ("b", .vstr "d")] ∧
    (c3WFlags.map destOf = recKeys c3WFields ∧
     (∀ fl ∈ c3WFlags, lookupKey (destOf fl)
        [("a_x", PVal.vstr "1"), ("b", PVal.vstr "d")] =
       some ((lookupKey (destOf fl)
          (updatesOf c3WFlags ["--a-x", "1"]).reverse).getD (initVal fl.kind))) ∧
     buildRecordInstance c3WFields [("a_x", .vstr "1"), ("b", .vstr "d")] =
       .ok (expFields [("a_x", PVal.vstr "1"), ("b", PVal.vstr "d")] c3WFields) ∧
     parseFull c3WFields ["--a-x", "1"] =
       .ok (expFields [("a_x", PVal.vstr "1"), ("b", PVal.vstr "d")]
         c3WFields)) := by
  have hwf : wfFields c3WFields = true := by decide
  have hb : makeParserFlags c3WFields = .ok c3WFlags := by
    have htop : buildTopActs c3WFields = .ok c3WFlags := by
      simp only [c3WFields, c3WFlags, buildTopActs, buildActs, buildRecordActs,
        prefixFlags, prefixAliases, canonicalAlias, String.append_assoc,
        addAliasPre_marker, defaultP, Option.isNone_none, Option.isNone_some]
      have e1 : "--" ++ (hyph "a" ++ ("-" ++ hyph "x")) = "--a-x" := by decide
      have e2 : "--" ++ hyph "b" = "--b" := by decide
      rw [e1, e2]
      rfl
    simp only [makeParserFlags, htop]
    rw [if_pos (by decide)]
  have hp : parseArgsModel c3WFlags ["--a-x", "1"] = .ok
      [("a_x", .vstr "1"), ("b", .vstr "d")] := by decide
  exact ⟨hwf, hb, hp,
    c3_round_trip c3WFields ["--a-x", "1"] c3WFlags _ hwf hb hp⟩

end Shogun
